import Mathlib

/-!
Verification of the FabAI task-scheduling and approval-workflow core.

This file gives a shallow embedding in Lean of the two core components of
the repository:

* the Scheduler (`src/queue/task-queue.ts`, class TaskQueue): a priority
  backlog with resource locks, dependency gating and a concurrency ceiling;
* the Workflow Engine (`src/workflow/approval-engine.ts`, class
  ApprovalEngine): role-gated multi-stage approval state machines.

Modelling conventions:

* JS `Map` is embedded as an association list `List (String × V)` whose
  operations mirror JS semantics: `set` updates an existing key in place
  (keeping its position) or appends, `get` returns the first binding,
  `delete` removes the binding.
* JS `Date` values are embedded as `Nat` timestamps; operations that read
  the current clock take an explicit `now : Nat` argument.
* `Array.prototype.sort` with the queue comparator is embedded as a stable
  insertion sort `sortQueue`; ECMAScript requires the sort to be stable and
  consistent with the comparator, and a stable sort over a total preorder
  has a unique output, so any compliant engine produces the same list.
* `throw` in the engine is embedded as `Except`: every operation returns
  the (possibly partially mutated) state together with an `Except` result,
  so that "state unchanged on failure" is a real statement.
* Event emission and logging carry no state; the task payloads of the
  `task_started` / `task_completed` / `task_failed` events are returned as
  an `Option Task` component so that theorems can speak about the admitted
  or departing task.  Fields of `Task` that the scheduler never reads
  (`type`, `websiteTarget`, `estimatedTime`, `description`, `context`) are
  omitted from the record.
-/

/-! ### Association-list maps mirroring JS Map -/

def mapLookup {V : Type} : List (String × V) → String → Option V
  | [], _ => none
  | (k₁, v) :: rest, k => if k₁ = k then some v else mapLookup rest k

def mapSet {V : Type} : List (String × V) → String → V → List (String × V)
  | [], k, v => [(k, v)]
  | (k₁, v₁) :: rest, k, v =>
      if k₁ = k then (k, v) :: rest else (k₁, v₁) :: mapSet rest k v

def mapErase {V : Type} : List (String × V) → String → List (String × V)
  | [], _ => []
  | (k₁, v₁) :: rest, k =>
      if k₁ = k then mapErase rest k else (k₁, v₁) :: mapErase rest k

def mapKeys {V : Type} (m : List (String × V)) : List String :=
  m.map Prod.fst

/-! ### De-duplication keeping first occurrences, mirroring JS new Set iteration -/

def dedupFirstAux (seen : List String) : List String → List String
  | [] => []
  | x :: xs => if x ∈ seen then dedupFirstAux seen xs else x :: dedupFirstAux (x :: seen) xs

def dedupFirst (l : List String) : List String :=
  dedupFirstAux [] l

namespace FabAI

/-! ### Task data model, from src/types.ts -/

inductive TaskPriority : Type
  | low
  | medium
  | high
  | urgent
deriving DecidableEq

inductive TaskStatus : Type
  | queued
  | processing
  | waitingApproval
  | completed
  | failed
deriving DecidableEq

structure Task : Type where
  id : String
  priority : TaskPriority
  requesterId : String
  dependencies : List String
  resources : List String
  status : TaskStatus
  createdAt : Nat
  startedAt : Option Nat
  completedAt : Option Nat
deriving DecidableEq

/-- The state owned by class TaskQueue: the backlog array, the in-flight map,
the concurrency ceiling and the resource lock table (resource name to the id
of the task holding it). -/
structure SchedState : Type where
  queue : List Task
  processing : List (String × Task)
  maxConcurrent : Nat
  resourceLocks : List (String × String)
deriving DecidableEq

/-- The TaskQueue constructor: all containers empty (the TS default ceiling
is 3, but the ceiling is a constructor argument). -/
def mkQueue (maxConcurrent : Nat) : SchedState :=
  { queue := [], processing := [], maxConcurrent := maxConcurrent, resourceLocks := [] }

/-- Ids of all tasks the scheduler currently tracks, backlog then in-flight. -/
def trackedIds (s : SchedState) : List String :=
  s.queue.map Task.id ++ mapKeys s.processing

/-! ### Sorting, from sortQueue in task-queue.ts -/

def priorityWeight : TaskPriority → Nat
  | .urgent => 4
  | .high => 3
  | .medium => 2
  | .low => 1

/-- The comparator of sortQueue as a should-come-no-later relation: priority
weight descending, ties broken by createdAt ascending. -/
def taskLE (a b : Task) : Bool :=
  decide (priorityWeight b.priority < priorityWeight a.priority) ||
    (decide (priorityWeight a.priority = priorityWeight b.priority) &&
      decide (a.createdAt ≤ b.createdAt))

def insertTask (t : Task) : List Task → List Task
  | [] => [t]
  | u :: rest => if taskLE t u then t :: u :: rest else u :: insertTask t rest

/-- Stable sort by the comparator of sortQueue.  ECMAScript Array sort is
required to be stable and comparator-consistent, and a stable sort over a
total preorder has a unique output, so this insertion sort computes exactly
what the TS sortQueue leaves in the queue. -/
def sortQueue : List Task → List Task
  | [] => []
  | t :: rest => insertTask t (sortQueue rest)

/-! ### Scheduler operations, from task-queue.ts -/

/-- checkResourceConflicts: the ids of tasks other than this one holding a
lock on any of its resources, first occurrences kept (new Set dedup).  The
source guards the push with JS truthiness (lockingTaskId &&
lockingTaskId !== task.id): among strings only the empty string is falsy,
so a lock held by the empty-string id is never reported as a conflict. -/
def checkResourceConflicts (s : SchedState) (task : Task) : List String :=
  dedupFirst ((task.resources.filterMap (fun r => mapLookup s.resourceLocks r)).filter
    (fun lockingTaskId => decide (lockingTaskId ≠ "" ∧ lockingTaskId ≠ task.id)))

/-- The dependency lookup inside canProcessTask:
processing.get(depId) or else queue.find(t => t.id === depId). -/
def trackedLookup (s : SchedState) (depId : String) : Option Task :=
  match mapLookup s.processing depId with
  | some dep => some dep
  | none => s.queue.find? (fun t => decide (t.id = depId))

/-- canProcessTask: no tracked incomplete dependency, and every resource is
either unlocked or locked by this very task.  The resource test is guarded
by JS truthiness in the source (if lockingTaskId && lockingTaskId !==
task.id return false): the empty string is the only falsy string, so a lock
held by the empty-string id does not block admission. -/
def canProcessTask (s : SchedState) (task : Task) : Bool :=
  (task.dependencies.filter (fun depId =>
      match trackedLookup s depId with
      | some dep => decide (dep.status ≠ TaskStatus.completed)
      | none => false)).isEmpty &&
    task.resources.all (fun r =>
      match mapLookup s.resourceLocks r with
      | some lockingTaskId => decide (lockingTaskId = "" ∨ lockingTaskId = task.id)
      | none => true)

/-- lockResources: point every resource of the task at its id. -/
def lockResources (s : SchedState) (task : Task) : SchedState :=
  { s with resourceLocks :=
      task.resources.foldl (fun m r => mapSet m r task.id) s.resourceLocks }

/-- unlockResources: delete each resource entry still held by this task. -/
def unlockResources (s : SchedState) (task : Task) : SchedState :=
  { s with resourceLocks :=
      task.resources.foldl (fun m r =>
        match mapLookup m r with
        | some lockingTaskId => if lockingTaskId = task.id then mapErase m r else m
        | none => m) s.resourceLocks }

/-- processNext: no-op at the ceiling, otherwise admit the first task of the
backlog passing canProcessTask: drop it from the queue, lock its resources,
mark it processing and insert it into the in-flight map.  The second
component is the task_started event payload. -/
def processNext (s : SchedState) (now : Nat) : SchedState × Option Task :=
  if s.maxConcurrent ≤ s.processing.length then (s, none)
  else
    match s.queue.find? (fun task => canProcessTask s task) with
    | none => (s, none)
    | some nextTask =>
      let s₁ := { s with queue := s.queue.filter (fun t => decide (t.id ≠ nextTask.id)) }
      let s₂ := lockResources s₁ nextTask
      let started := { nextTask with status := TaskStatus.processing, startedAt := some now }
      ({ s₂ with processing := mapSet s₂.processing started.id started }, some started)

/-- addTask: append detected resource conflicts to the dependency list, push
into the backlog, re-sort and attempt immediate admission. -/
def addTask (s : SchedState) (task : Task) (now : Nat) : SchedState × Option Task :=
  let conflicts := checkResourceConflicts s task
  let task₂ := { task with dependencies := task.dependencies ++ conflicts }
  processNext { s with queue := sortQueue (s.queue ++ [task₂]) } now

/-- completeTask: no-op warning if not in flight, otherwise stamp the given
final status, unlock resources, leave the in-flight map, and try to admit a
further task.  The second component is the task_completed event payload. -/
def completeTask (s : SchedState) (taskId : String) (status : TaskStatus) (now : Nat) :
    SchedState × Option Task :=
  match mapLookup s.processing taskId with
  | none => (s, none)
  | some task =>
    let task₂ := { task with status := status, completedAt := some now }
    let s₁ := unlockResources s task₂
    let s₂ := { s₁ with processing := mapErase s₁.processing taskId }
    ((processNext s₂ now).1, some task₂)

/-- failTask: identical to completeTask with final status failed. -/
def failTask (s : SchedState) (taskId : String) (now : Nat) :
    SchedState × Option Task :=
  match mapLookup s.processing taskId with
  | none => (s, none)
  | some task =>
    let task₂ := { task with status := TaskStatus.failed, completedAt := some now }
    let s₁ := unlockResources s task₂
    let s₂ := { s₁ with processing := mapErase s₁.processing taskId }
    ((processNext s₂ now).1, some task₂)

/-! ### Approval engine data model, from src/types.ts -/

inductive UserRole : Type
  | superadmin
  | admin
  | developer
deriving DecidableEq

structure User : Type where
  userId : String
  name : String
  role : UserRole
  permissions : List String
deriving DecidableEq

structure ApprovalStage : Type where
  level : Nat
  role : UserRole
  required : Bool
  timeout : Nat
  approvedBy : Option String
  approvedAt : Option Nat
deriving DecidableEq

inductive WorkflowStatus : Type
  | pending
  | approved
  | rejected
  | expired
deriving DecidableEq

structure ApprovalWorkflow : Type where
  taskId : String
  stages : List ApprovalStage
  currentStage : Nat
  requiredApprovals : Nat
  status : WorkflowStatus
deriving DecidableEq

/-- The state owned by class ApprovalEngine: workflows keyed by task id and
the user registry keyed by user id. -/
structure EngineState : Type where
  workflows : List (String × ApprovalWorkflow)
  users : List (String × User)
deriving DecidableEq

/-- The ApprovalEngine constructor: registers the given users. -/
def mkEngine (users : List User) : EngineState :=
  { workflows := [],
    users := users.foldl (fun m u => mapSet m u.userId u) [] }

/-- The error taxonomy of the engine, standing in for the thrown Error
values.  The unknown-user message of approve and the role check of
emergencyApprove are worded as authorization failures in the source; both
user-lookup failures are mapped to unknownUser and the role mismatches to
forbidden. -/
inductive EngineError : Type
  | unknownWorkflow
  | unknownUser
  | noCurrentStage
  | forbidden
deriving DecidableEq

/-! ### Approval engine operations, from approval-engine.ts -/

/-- buildApprovalStages: a developer requester gets a required developer
stage (30 min timeout); everyone gets the required admin stage (1 h) and the
optional superadmin stage (2 h). -/
def buildApprovalStages (requesterRole : UserRole) : List ApprovalStage :=
  (if requesterRole = UserRole.developer then
    [{ level := 1, role := UserRole.developer, required := true,
       timeout := 30 * 60 * 1000, approvedBy := none, approvedAt := none }]
  else []) ++
  [{ level := 2, role := UserRole.admin, required := true,
     timeout := 60 * 60 * 1000, approvedBy := none, approvedAt := none },
   { level := 3, role := UserRole.superadmin, required := false,
     timeout := 2 * 60 * 60 * 1000, approvedBy := none, approvedAt := none }]

/-- createWorkflow: unknown requester fails; otherwise a fresh pending
workflow at stage 0 is stored (overwriting any previous one for the id). -/
def createWorkflow (s : EngineState) (taskId requesterId : String) :
    EngineState × Except EngineError ApprovalWorkflow :=
  match mapLookup s.users requesterId with
  | none => (s, Except.error EngineError.unknownUser)
  | some requester =>
    let stages := buildApprovalStages requester.role
    let workflow : ApprovalWorkflow :=
      { taskId := taskId, stages := stages, currentStage := 0,
        requiredApprovals := (stages.filter (fun st => st.required)).length,
        status := WorkflowStatus.pending }
    ({ s with workflows := mapSet s.workflows taskId workflow }, Except.ok workflow)

/-- canApprove permission matrix. -/
def canApprove (user : User) (stage : ApprovalStage) : Bool :=
  if user.role = UserRole.superadmin then true
  else if user.role = UserRole.admin ∧
      (stage.role = UserRole.admin ∨ stage.role = UserRole.developer) then true
  else if user.role = UserRole.developer ∧ stage.role = UserRole.developer then true
  else false

/-- advanceWorkflow: if the next index is past the end, the workflow becomes
approved and true is returned; otherwise move to the next index, skipping
recursively over non-required stages. -/
def advanceWorkflow (wf : ApprovalWorkflow) : ApprovalWorkflow × Bool :=
  if h : wf.stages.length ≤ wf.currentStage + 1 then
    ({ wf with status := WorkflowStatus.approved }, true)
  else
    let nextStage := wf.stages.get ⟨wf.currentStage + 1, by omega⟩
    if nextStage.required then
      ({ wf with currentStage := wf.currentStage + 1 }, false)
    else
      advanceWorkflow { wf with currentStage := wf.currentStage + 1 }
termination_by wf.stages.length - wf.currentStage
decreasing_by
  omega

/-- approve: after the four checks (workflow, user, stage in range,
permission) the current stage is stamped with approver and time, and the
workflow advances. -/
def approve (s : EngineState) (now : Nat) (taskId userId : String) :
    EngineState × Except EngineError Bool :=
  match mapLookup s.workflows taskId with
  | none => (s, Except.error EngineError.unknownWorkflow)
  | some workflow =>
    match mapLookup s.users userId with
    | none => (s, Except.error EngineError.unknownUser)
    | some user =>
      match workflow.stages.get? workflow.currentStage with
      | none => (s, Except.error EngineError.noCurrentStage)
      | some currentStage =>
        if canApprove user currentStage then
          let stage₂ := { currentStage with approvedBy := some userId, approvedAt := some now }
          let wf₁ := { workflow with stages := workflow.stages.set workflow.currentStage stage₂ }
          let adv := advanceWorkflow wf₁
          ({ s with workflows := mapSet s.workflows taskId adv.1 }, Except.ok adv.2)
        else (s, Except.error EngineError.forbidden)

/-- reject: after the two lookups the status is set to rejected
unconditionally (no role check and no status check). -/
def reject (s : EngineState) (taskId userId : String) (reason : String) :
    EngineState × Except EngineError Unit :=
  match mapLookup s.workflows taskId with
  | none => (s, Except.error EngineError.unknownWorkflow)
  | some workflow =>
    match mapLookup s.users userId with
    | none => (s, Except.error EngineError.unknownUser)
    | some _ =>
      ({ s with workflows :=
          mapSet s.workflows taskId { workflow with status := WorkflowStatus.rejected } },
        Except.ok ())

/-- emergencyApprove: only a registered superadmin may force the status to
approved; nothing else is touched. -/
def emergencyApprove (s : EngineState) (taskId userId : String) :
    EngineState × Except EngineError Bool :=
  match mapLookup s.workflows taskId with
  | none => (s, Except.error EngineError.unknownWorkflow)
  | some workflow =>
    match mapLookup s.users userId with
    | none => (s, Except.error EngineError.forbidden)
    | some user =>
      if user.role = UserRole.superadmin then
        ({ s with workflows :=
            mapSet s.workflows taskId { workflow with status := WorkflowStatus.approved } },
          Except.ok true)
      else (s, Except.error EngineError.forbidden)

/-! ### Spec-side definitions for the admission-test refinement (C1) -/

/-- The spec notion of a tracked task: a task in the backlog or in the
in-flight set, carrying the given id. -/
def SpecTracked (s : SchedState) (i : String) (u : Task) : Prop :=
  (u ∈ s.queue ∨ ∃ p ∈ s.processing, p.2 = u) ∧ u.id = i

/-- The admission test in spec wording, amended for the truthiness guard of
the source, to be compared with the source-derived canProcessTask: (a)
every dependency id that is still tracked has status completed (an unknown
dependency counts as satisfied), and (b) no resource of the task is locked
by a different task with a non-empty id — a lock whose holder is the
empty-string id (the only falsy string) is disregarded by the program. -/
def specAdmissible (s : SchedState) (t : Task) : Prop :=
  (∀ depId ∈ t.dependencies, ∀ u : Task,
      SpecTracked s depId u → u.status = TaskStatus.completed) ∧
  (∀ r ∈ t.resources, ∀ tid, mapLookup s.resourceLocks r = some tid →
      tid = "" ∨ tid = t.id)

/-- Well-formedness of a scheduler state used as a hypothesis: distinct
tracked ids (ids are unique by the data model) and in-flight entries keyed by
their task id. -/
def WFIds (s : SchedState) : Prop :=
  (trackedIds s).Nodup ∧ ∀ p ∈ s.processing, p.1 = p.2.id

/-- Scheduler states reachable through the public API from a fresh queue.
A submitted task enters with status queued and a fresh id, per the task
lifecycle of the data model; complete may be called with any status value
and any id, as in the source. -/
inductive SchedReach : SchedState → Prop where
  | init (max : Nat) : SchedReach (mkQueue max)
  | submit (s : SchedState) (task : Task) (now : Nat) : SchedReach s →
      task.status = TaskStatus.queued → task.id ∉ trackedIds s →
      SchedReach (addTask s task now).1
  | admitNext (s : SchedState) (now : Nat) : SchedReach s →
      SchedReach (processNext s now).1
  | complete (s : SchedState) (taskId : String) (st : TaskStatus) (now : Nat) :
      SchedReach s → SchedReach (completeTask s taskId st now).1
  | fail (s : SchedState) (taskId : String) (now : Nat) :
      SchedReach s → SchedReach (failTask s taskId now).1

/-- Scheduler states reachable when, in addition, every submitted task id is
non-empty.  The empty-string id is the one string the resource checks of the
source treat as falsy, so the lock-table invariant only holds on this
restricted reachability (see the C2 counterexample for the unrestricted
relation). -/
inductive SchedReachNE : SchedState → Prop where
  | init (max : Nat) : SchedReachNE (mkQueue max)
  | submit (s : SchedState) (task : Task) (now : Nat) : SchedReachNE s →
      task.status = TaskStatus.queued → task.id ∉ trackedIds s → task.id ≠ "" →
      SchedReachNE (addTask s task now).1
  | admitNext (s : SchedState) (now : Nat) : SchedReachNE s →
      SchedReachNE (processNext s now).1
  | complete (s : SchedState) (taskId : String) (st : TaskStatus) (now : Nat) :
      SchedReachNE s → SchedReachNE (completeTask s taskId st now).1
  | fail (s : SchedState) (taskId : String) (now : Nat) :
      SchedReachNE s → SchedReachNE (failTask s taskId now).1

/-- The inductive invariant of scheduler states reachable with non-empty
submitted task ids. -/
structure SchedInv (s : SchedState) : Prop where
  nodupIds : (trackedIds s).Nodup
  procKeys : ∀ p ∈ s.processing, p.1 = p.2.id
  lockKeys : (mapKeys s.resourceLocks).Nodup
  lockChar : ∀ r tid, mapLookup s.resourceLocks r = some tid ↔
    ∃ p ∈ s.processing, p.2.id = tid ∧ r ∈ p.2.resources
  queueStatus : ∀ t ∈ s.queue, t.status = TaskStatus.queued
  procStatus : ∀ p ∈ s.processing, p.2.status = TaskStatus.processing
  procBound : s.processing.length ≤ s.maxConcurrent
  idsNonempty : ∀ i ∈ trackedIds s, i ≠ ""

/-- A weaker invariant that holds on all of SchedReach, empty-string ids
included: status discipline of backlog and in-flight tasks, and the
concurrency bound.  Unlike SchedInv it says nothing about the lock table. -/
def WeakInv (s : SchedState) : Prop :=
  (∀ t ∈ s.queue, t.status = TaskStatus.queued) ∧
  (∀ p ∈ s.processing, p.2.status = TaskStatus.processing) ∧
  s.processing.length ≤ s.maxConcurrent

/-! ### Concrete fixtures used by witnesses and counterexamples -/

def userSA : User :=
  { userId := "sa", name := "Sam", role := UserRole.superadmin, permissions := [] }

def userAD : User :=
  { userId := "ad", name := "Ada", role := UserRole.admin, permissions := [] }

def userDV : User :=
  { userId := "dv", name := "Dee", role := UserRole.developer, permissions := [] }

/-- The three stage records produced by buildApprovalStages, named for use
in statements and proofs. -/
def stageDev : ApprovalStage :=
  { level := 1, role := UserRole.developer, required := true,
    timeout := 30 * 60 * 1000, approvedBy := none, approvedAt := none }

def stageAdmin : ApprovalStage :=
  { level := 2, role := UserRole.admin, required := true,
    timeout := 60 * 60 * 1000, approvedBy := none, approvedAt := none }

def stageSuper : ApprovalStage :=
  { level := 3, role := UserRole.superadmin, required := false,
    timeout := 2 * 60 * 60 * 1000, approvedBy := none, approvedAt := none }

/-- A stage stamped by approve: approvedBy and approvedAt are filled in. -/
def stampStage (st : ApprovalStage) (uid : String) (t : Nat) : ApprovalStage :=
  { st with approvedBy := some uid, approvedAt := some t }

/-- Shorthand for a workflow record with two required stages. -/
def wfDev (taskId : String) (stages : List ApprovalStage) (cur : Nat)
    (st : WorkflowStatus) : ApprovalWorkflow :=
  { taskId := taskId, stages := stages, currentStage := cur,
    requiredApprovals := 2, status := st }

/-- A stored workflow used by the C10 witness. -/
def wfPend : ApprovalWorkflow :=
  { taskId := "t1", stages := buildApprovalStages UserRole.admin, currentStage := 0,
    requiredApprovals := 1, status := WorkflowStatus.pending }

def engC10state : EngineState :=
  { workflows := [("t1", wfPend)], users := [("sa", userSA)] }

def taskA : Task :=
  { id := "a", priority := TaskPriority.medium, requesterId := "u1",
    dependencies := [], resources := ["web"], status := TaskStatus.queued,
    createdAt := 0, startedAt := none, completedAt := none }

def taskB : Task :=
  { id := "b", priority := TaskPriority.urgent, requesterId := "u2",
    dependencies := ["a"], resources := ["web"], status := TaskStatus.queued,
    createdAt := 1, startedAt := none, completedAt := none }

/-- The state after submitting taskA to an empty one-slot queue: taskA is
admitted at once and holds the lock on web. -/
def schedS1 : SchedState := (addTask (mkQueue 1) taskA 0).1

/-- taskA as it looks while in flight. -/
def taskAproc : Task :=
  { id := "a", priority := TaskPriority.medium, requesterId := "u1",
    dependencies := [], resources := ["web"], status := TaskStatus.processing,
    createdAt := 0, startedAt := some 0, completedAt := none }

def taskC : Task :=
  { id := "c", priority := TaskPriority.low, requesterId := "u3",
    dependencies := [], resources := ["db"], status := TaskStatus.queued,
    createdAt := 2, startedAt := none, completedAt := none }

/-- A state used by the C1 witness: taskA is in flight holding web, the
backlog holds taskB (blocked: it depends on the still-running taskA and
wants the locked web) ahead of taskC (admissible). -/
def schedC1state : SchedState :=
  { queue := [taskB, taskC], processing := [("a", taskAproc)],
    maxConcurrent := 2, resourceLocks := [("web", "a")] }

/-- A task whose id is the empty string — the one string value that is falsy
in JS, making its resource locks invisible to the resource checks. -/
def taskE : Task :=
  { id := "", priority := TaskPriority.medium, requesterId := "u0",
    dependencies := [], resources := ["r"], status := TaskStatus.queued,
    createdAt := 0, startedAt := none, completedAt := none }

/-- A second task contending for the same resource r. -/
def taskY : Task :=
  { id := "y", priority := TaskPriority.medium, requesterId := "u4",
    dependencies := [], resources := ["r"], status := TaskStatus.queued,
    createdAt := 1, startedAt := none, completedAt := none }

/-- After submitting taskE to an empty two-slot queue: taskE is admitted and
the lock table maps r to the empty-string id. -/
def schedEmptyLock : SchedState := (addTask (mkQueue 2) taskE 0).1

/-- The backlog state handed to admitNext in the C1 counterexample: taskY is
queued while r is locked by the empty-string task. -/
def schedEmptyPre : SchedState := { schedEmptyLock with queue := [taskY] }

/-- The reachable state of the C2 counterexample: taskY submitted on top of
schedEmptyLock is admitted despite the lock on r and overwrites it. -/
def schedEmptyOverwrite : SchedState := (addTask schedEmptyLock taskY 1).1

end FabAI

/-! ### Lemmas about the generic map and dedup helpers -/

@[simp] theorem mapLookup_nil {V : Type} (k : String) :
    mapLookup ([] : List (String × V)) k = none := rfl

theorem mapLookup_cons {V : Type} (k₁ : String) (v : V) (rest : List (String × V)) (k : String) :
    mapLookup ((k₁, v) :: rest) k = if k₁ = k then some v else mapLookup rest k := rfl

theorem mapLookup_mapSet {V : Type} (m : List (String × V)) (k k₂ : String) (v : V) :
    mapLookup (mapSet m k v) k₂ = if k = k₂ then some v else mapLookup m k₂ := by
  induction m with
  | nil => simp [mapSet, mapLookup_cons]
  | cons p rest ih =>
    obtain ⟨k₁, v₁⟩ := p
    by_cases h : k₁ = k
    · subst h
      by_cases h₂ : k₁ = k₂ <;> simp [mapSet, mapLookup_cons, h₂]
    · simp only [mapSet, if_neg h, mapLookup_cons, ih]
      by_cases h₂ : k₁ = k₂
      · subst h₂
        simp [Ne.symm h]
      · simp [h₂]

@[simp] theorem mapLookup_mapSet_self {V : Type} (m : List (String × V)) (k : String) (v : V) :
    mapLookup (mapSet m k v) k = some v := by
  simp [mapLookup_mapSet]

theorem mapLookup_mapSet_ne {V : Type} (m : List (String × V)) {k k₂ : String} (v : V)
    (h : k ≠ k₂) : mapLookup (mapSet m k v) k₂ = mapLookup m k₂ := by
  simp [mapLookup_mapSet, h]

theorem mapLookup_mapErase {V : Type} (m : List (String × V)) (k k₂ : String) :
    mapLookup (mapErase m k) k₂ = if k = k₂ then none else mapLookup m k₂ := by
  induction m with
  | nil => simp [mapErase]
  | cons p rest ih =>
    obtain ⟨k₁, v₁⟩ := p
    by_cases h : k₁ = k
    · subst h
      by_cases h₂ : k₁ = k₂
      · subst h₂
        simp [mapErase, ih]
      · simp [mapErase, mapLookup_cons, h₂, ih]
    · by_cases h₂ : k₁ = k₂
      · subst h₂
        simp [mapErase, if_neg h, mapLookup_cons, Ne.symm h]
      · simp [mapErase, if_neg h, mapLookup_cons, h₂, ih]

theorem mapErase_sublist {V : Type} (m : List (String × V)) (k : String) :
    (mapErase m k).Sublist m := by
  induction m with
  | nil => simp [mapErase]
  | cons p rest ih =>
    obtain ⟨k₁, v₁⟩ := p
    by_cases h : k₁ = k
    · subst h
      simp only [mapErase, if_pos rfl]
      exact List.Sublist.cons _ ih
    · simp only [mapErase, if_neg h]
      exact List.Sublist.cons₂ _ ih

theorem mem_mapErase {V : Type} (m : List (String × V)) (k : String) (p : String × V) :
    p ∈ mapErase m k ↔ p ∈ m ∧ p.1 ≠ k := by
  induction m with
  | nil => simp [mapErase]
  | cons q rest ih =>
    obtain ⟨k₁, v₁⟩ := q
    by_cases h : k₁ = k
    · subst h
      have he : mapErase ((k₁, v₁) :: rest) k₁ = mapErase rest k₁ := by
        simp [mapErase]
      rw [he, ih]
      simp only [List.mem_cons]
      constructor
      · rintro ⟨hm, hne⟩
        exact ⟨Or.inr hm, hne⟩
      · rintro ⟨hm | hm, hne⟩
        · subst hm
          simp at hne
        · exact ⟨hm, hne⟩
    · have he : mapErase ((k₁, v₁) :: rest) k = (k₁, v₁) :: mapErase rest k := by
        simp [mapErase, h]
      rw [he]
      simp only [List.mem_cons, ih]
      constructor
      · rintro (hp | ⟨hm, hne⟩)
        · subst hp
          exact ⟨Or.inl rfl, h⟩
        · exact ⟨Or.inr hm, hne⟩
      · rintro ⟨hp | hm, hne⟩
        · exact Or.inl hp
        · exact Or.inr ⟨hm, hne⟩

theorem mapSet_eq_append {V : Type} (m : List (String × V)) (k : String) (v : V)
    (h : k ∉ mapKeys m) : mapSet m k v = m ++ [(k, v)] := by
  induction m with
  | nil => simp [mapSet]
  | cons p rest ih =>
    obtain ⟨k₁, v₁⟩ := p
    simp only [mapKeys, List.map_cons, List.mem_cons] at h
    push_neg at h
    have hne : k₁ ≠ k := Ne.symm h.1
    simp only [mapSet, if_neg hne]
    rw [ih (by simpa [mapKeys] using h.2)]
    simp

theorem mem_mapSet {V : Type} (m : List (String × V)) (k : String) (v : V)
    (p : String × V) (h : p ∈ mapSet m k v) : p ∈ m ∨ p = (k, v) := by
  induction m with
  | nil => simpa [mapSet] using h
  | cons q rest ih =>
    obtain ⟨k₁, v₁⟩ := q
    by_cases hk : k₁ = k
    · simp only [mapSet] at h
      rw [if_pos hk] at h
      rcases List.mem_cons.mp h with h | h
      · exact Or.inr h
      · exact Or.inl (List.mem_cons.mpr (Or.inr h))
    · simp only [mapSet, if_neg hk, List.mem_cons] at h
      rcases h with h | h
      · exact Or.inl (List.mem_cons.mpr (Or.inl h))
      · rcases ih h with h₂ | h₂
        · exact Or.inl (List.mem_cons.mpr (Or.inr h₂))
        · exact Or.inr h₂

theorem length_mapSet_le {V : Type} (m : List (String × V)) (k : String) (v : V) :
    (mapSet m k v).length ≤ m.length + 1 := by
  induction m with
  | nil => simp [mapSet]
  | cons q rest ih =>
    obtain ⟨k₁, v₁⟩ := q
    by_cases hk : k₁ = k
    · simp only [mapSet]
      rw [if_pos hk]
      simp
    · simp only [mapSet, if_neg hk, List.length_cons]
      omega

theorem mapKeys_mapSet {V : Type} (m : List (String × V)) (k : String) (v : V) :
    mapKeys (mapSet m k v) =
      if k ∈ mapKeys m then mapKeys m else mapKeys m ++ [k] := by
  induction m with
  | nil => simp [mapSet, mapKeys]
  | cons p rest ih =>
    obtain ⟨k₁, v₁⟩ := p
    by_cases h : k₁ = k
    · subst h
      simp [mapSet, mapKeys]
    · simp only [mapSet, if_neg h, mapKeys, List.map_cons] at ih ⊢
      rw [ih]
      by_cases hm : k ∈ rest.map Prod.fst
      · simp [hm, Ne.symm h]
      · simp [hm, Ne.symm h]

theorem mapKeys_mapSet_nodup {V : Type} (m : List (String × V)) (k : String) (v : V)
    (h : (mapKeys m).Nodup) : (mapKeys (mapSet m k v)).Nodup := by
  rw [mapKeys_mapSet]
  by_cases hm : k ∈ mapKeys m
  · simpa [hm] using h
  · simp only [if_neg hm]
    rw [List.nodup_append]
    exact ⟨h, List.nodup_singleton k, by simpa [List.disjoint_singleton] using hm⟩

theorem mapLookup_eq_some_mem {V : Type} {m : List (String × V)} {k : String} {v : V}
    (h : mapLookup m k = some v) : (k, v) ∈ m := by
  induction m with
  | nil => simp at h
  | cons p rest ih =>
    obtain ⟨k₁, v₁⟩ := p
    by_cases hk : k₁ = k
    · subst hk
      have h₁ : some v₁ = some v := by simpa [mapLookup_cons] using h
      have h₂ : v₁ = v := by injection h₁
      subst h₂
      exact List.mem_cons_self _ _
    · rw [mapLookup_cons, if_neg hk] at h
      exact List.mem_cons_of_mem _ (ih h)

theorem mem_mapLookup_of_nodup {V : Type} {m : List (String × V)} {k : String} {v : V}
    (hnd : (mapKeys m).Nodup) (h : (k, v) ∈ m) : mapLookup m k = some v := by
  induction m with
  | nil => simp at h
  | cons p rest ih =>
    obtain ⟨k₁, v₁⟩ := p
    simp only [mapKeys, List.map_cons, List.nodup_cons] at hnd
    rcases List.mem_cons.mp h with hp | hp
    · simp only [Prod.mk.injEq] at hp
      obtain ⟨hk, hv⟩ := hp
      subst hk
      subst hv
      simp [mapLookup_cons]
    · have hk : k₁ ≠ k := by
        intro hkk
        subst hkk
        exact hnd.1 (by simpa [mapKeys] using List.mem_map_of_mem Prod.fst hp)
      simp [mapLookup_cons, hk, ih hnd.2 hp]

theorem mapLookup_eq_none_iff {V : Type} (m : List (String × V)) (k : String) :
    mapLookup m k = none ↔ k ∉ mapKeys m := by
  induction m with
  | nil => simp [mapKeys]
  | cons p rest ih =>
    obtain ⟨k₁, v₁⟩ := p
    by_cases hk : k₁ = k
    · subst hk
      simp [mapLookup_cons, mapKeys]
    · simp [mapLookup_cons, hk, mapKeys, ih, Ne.symm hk]

theorem mapKeys_value_unique {V : Type} {m : List (String × V)} {k : String} {v₁ v₂ : V}
    (hnd : (mapKeys m).Nodup) (h₁ : (k, v₁) ∈ m) (h₂ : (k, v₂) ∈ m) : v₁ = v₂ := by
  have e₁ := mem_mapLookup_of_nodup hnd h₁
  have e₂ := mem_mapLookup_of_nodup hnd h₂
  rw [e₁] at e₂
  exact Option.some.injEq .. ▸ e₂

theorem mem_dedupFirstAux (seen l : List String) (x : String) :
    x ∈ dedupFirstAux seen l ↔ x ∈ l ∧ x ∉ seen := by
  induction l generalizing seen with
  | nil => simp [dedupFirstAux]
  | cons a xs ih =>
    by_cases ha : a ∈ seen
    · simp only [dedupFirstAux, if_pos ha, ih, List.mem_cons]
      constructor
      · rintro ⟨hx, hs⟩
        exact ⟨Or.inr hx, hs⟩
      · rintro ⟨hx | hx, hs⟩
        · exact absurd (hx ▸ ha) hs
        · exact ⟨hx, hs⟩
    · simp only [dedupFirstAux, if_neg ha, List.mem_cons, ih]
      constructor
      · rintro (hx | ⟨hx, hs⟩)
        · exact ⟨Or.inl hx, hx ▸ ha⟩
        · push_neg at hs
          exact ⟨Or.inr hx, hs.2⟩
      · rintro ⟨hx | hx, hs⟩
        · exact Or.inl hx
        · by_cases hxa : x = a
          · exact Or.inl hxa
          · exact Or.inr ⟨hx, by simp [hxa, hs]⟩

theorem nodup_dedupFirstAux (seen l : List String) : (dedupFirstAux seen l).Nodup := by
  induction l generalizing seen with
  | nil => simp [dedupFirstAux]
  | cons a xs ih =>
    by_cases ha : a ∈ seen
    · simpa [dedupFirstAux, if_pos ha] using ih seen
    · simp only [dedupFirstAux, if_neg ha, List.nodup_cons]
      refine ⟨?_, ih (a :: seen)⟩
      intro hmem
      have := (mem_dedupFirstAux _ _ _).mp hmem
      exact this.2 (List.mem_cons_self _ _)

theorem mem_dedupFirst (l : List String) (x : String) : x ∈ dedupFirst l ↔ x ∈ l := by
  simp [dedupFirst, mem_dedupFirstAux]

theorem nodup_dedupFirst (l : List String) : (dedupFirst l).Nodup :=
  nodup_dedupFirstAux [] l

namespace FabAI

theorem taskLE_total (a b : Task) : taskLE a b = true ∨ taskLE b a = true := by
  simp only [taskLE, Bool.or_eq_true, Bool.and_eq_true, decide_eq_true_eq]
  omega

theorem taskLE_trans {a b c : Task} (h₁ : taskLE a b = true) (h₂ : taskLE b c = true) :
    taskLE a c = true := by
  simp only [taskLE, Bool.or_eq_true, Bool.and_eq_true, decide_eq_true_eq] at h₁ h₂ ⊢
  omega

theorem insertTask_perm (t : Task) (l : List Task) : List.Perm (insertTask t l) (t :: l) := by
  induction l with
  | nil => simp [insertTask]
  | cons u rest ih =>
    by_cases h : taskLE t u = true
    · simp [insertTask, h]
    · simp only [insertTask, if_neg h]
      exact List.Perm.trans (ih.cons u) (List.Perm.swap t u rest)

theorem sortQueue_perm (l : List Task) : List.Perm (sortQueue l) l := by
  induction l with
  | nil => simp [sortQueue]
  | cons t rest ih =>
    exact List.Perm.trans (insertTask_perm t (sortQueue rest)) (ih.cons t)

theorem mem_sortQueue (l : List Task) (t : Task) : t ∈ sortQueue l ↔ t ∈ l :=
  (sortQueue_perm l).mem_iff

theorem insertTask_sorted (t : Task) (l : List Task)
    (h : l.Pairwise (fun a b => taskLE a b = true)) :
    (insertTask t l).Pairwise (fun a b => taskLE a b = true) := by
  induction l with
  | nil => simp [insertTask]
  | cons u rest ih =>
    rcases List.pairwise_cons.mp h with ⟨hu, hrest⟩
    by_cases hle : taskLE t u = true
    · simp only [insertTask, if_pos hle]
      refine List.pairwise_cons.mpr ⟨?_, h⟩
      intro b hb
      rcases List.mem_cons.mp hb with rfl | hb
      · exact hle
      · exact taskLE_trans hle (hu b hb)
    · simp only [insertTask, if_neg hle]
      have hut : taskLE u t = true := by
        rcases taskLE_total t u with h₁ | h₁
        · exact absurd h₁ hle
        · exact h₁
      refine List.pairwise_cons.mpr ⟨?_, ih hrest⟩
      intro b hb
      have hb₂ : b ∈ t :: rest := (insertTask_perm t rest).mem_iff.mp hb
      rcases List.mem_cons.mp hb₂ with rfl | hb₂
      · exact hut
      · exact hu b hb₂

theorem sortQueue_sorted (l : List Task) :
    (sortQueue l).Pairwise (fun a b => taskLE a b = true) := by
  induction l with
  | nil => simp [sortQueue]
  | cons t rest ih => exact insertTask_sorted t (sortQueue rest) ih

/-! ### Helper lemmas about the approval engine -/

theorem canApprove_of_dev_stage (u : User) (st : ApprovalStage)
    (h : st.role = UserRole.developer) : canApprove u st = true := by
  cases hr : u.role <;> simp [canApprove, hr, h]

theorem canApprove_of_admin_stage (u : User) (st : ApprovalStage)
    (hu : u.role = UserRole.admin ∨ u.role = UserRole.superadmin)
    (h : st.role = UserRole.admin) : canApprove u st = true := by
  rcases hu with hu | hu <;> simp [canApprove, hu, h]

theorem advanceWorkflow_end (wf : ApprovalWorkflow)
    (h : wf.stages.length ≤ wf.currentStage + 1) :
    advanceWorkflow wf = ({ wf with status := WorkflowStatus.approved }, true) := by
  rw [advanceWorkflow]
  simp [h]

theorem advanceWorkflow_required (wf : ApprovalWorkflow)
    (h : wf.currentStage + 1 < wf.stages.length)
    (hreq : (wf.stages.get ⟨wf.currentStage + 1, h⟩).required = true) :
    advanceWorkflow wf = ({ wf with currentStage := wf.currentStage + 1 }, false) := by
  rw [advanceWorkflow]
  simp only [dif_neg (by omega : ¬ wf.stages.length ≤ wf.currentStage + 1)]
  simp only [List.get_eq_getElem] at hreq
  simp [hreq]

theorem advanceWorkflow_skip (wf : ApprovalWorkflow)
    (h : wf.currentStage + 1 < wf.stages.length)
    (hreq : (wf.stages.get ⟨wf.currentStage + 1, h⟩).required = false) :
    advanceWorkflow wf = advanceWorkflow { wf with currentStage := wf.currentStage + 1 } := by
  rw [advanceWorkflow]
  simp only [dif_neg (by omega : ¬ wf.stages.length ≤ wf.currentStage + 1)]
  simp only [List.get_eq_getElem] at hreq
  simp [hreq]


/-! ### Claim C6: stage composition of createWorkflow -/

/-- C6: for every registered requester, createWorkflow builds the stages by
the composition rule: a developer requester gets the required developer
stage, the required admin stage and the optional superadmin stage (3
stages, 2 required); any other requester gets the latter two (2 stages, 1
required).  The workflow starts at currentStage 0 with status pending and
requiredApprovals equal to the number of required stages. -/
theorem engC6_createWorkflow_stages (s : EngineState) (taskId requesterId : String)
    (requester : User) (h : mapLookup s.users requesterId = some requester) :
    ∃ wf : ApprovalWorkflow,
      createWorkflow s taskId requesterId =
        ({ s with workflows := mapSet s.workflows taskId wf }, Except.ok wf) ∧
      wf.taskId = taskId ∧ wf.currentStage = 0 ∧ wf.status = WorkflowStatus.pending ∧
      wf.requiredApprovals = (wf.stages.filter (fun st => st.required)).length ∧
      (requester.role = UserRole.developer →
        wf.stages =
          [{ level := 1, role := UserRole.developer, required := true,
             timeout := 30 * 60 * 1000, approvedBy := none, approvedAt := none },
           { level := 2, role := UserRole.admin, required := true,
             timeout := 60 * 60 * 1000, approvedBy := none, approvedAt := none },
           { level := 3, role := UserRole.superadmin, required := false,
             timeout := 2 * 60 * 60 * 1000, approvedBy := none, approvedAt := none }] ∧
        wf.requiredApprovals = 2) ∧
      (requester.role ≠ UserRole.developer →
        wf.stages =
          [{ level := 2, role := UserRole.admin, required := true,
             timeout := 60 * 60 * 1000, approvedBy := none, approvedAt := none },
           { level := 3, role := UserRole.superadmin, required := false,
             timeout := 2 * 60 * 60 * 1000, approvedBy := none, approvedAt := none }] ∧
        wf.requiredApprovals = 1) := by
  refine ⟨{ taskId := taskId, stages := buildApprovalStages requester.role,
            currentStage := 0,
            requiredApprovals :=
              ((buildApprovalStages requester.role).filter (fun st => st.required)).length,
            status := WorkflowStatus.pending }, ?_, rfl, rfl, rfl, rfl, ?_, ?_⟩
  · simp [createWorkflow, h]
  · intro hr
    simp [buildApprovalStages, hr, List.filter]
  · intro hr
    cases hrr : requester.role with
    | developer => exact absurd hrr hr
    | admin => simp [buildApprovalStages, hrr, List.filter]
    | superadmin => simp [buildApprovalStages, hrr, List.filter]

/-- Witness for C6 at a concrete developer requester. -/
theorem engC6_witness :
    ∃ wf : ApprovalWorkflow,
      createWorkflow (mkEngine [userDV]) "t9" "dv" =
        ({ mkEngine [userDV] with
            workflows := mapSet (mkEngine [userDV]).workflows "t9" wf }, Except.ok wf) ∧
      wf.taskId = "t9" ∧ wf.currentStage = 0 ∧ wf.status = WorkflowStatus.pending ∧
      wf.requiredApprovals = (wf.stages.filter (fun st => st.required)).length ∧
      (userDV.role = UserRole.developer →
        wf.stages =
          [{ level := 1, role := UserRole.developer, required := true,
             timeout := 30 * 60 * 1000, approvedBy := none, approvedAt := none },
           { level := 2, role := UserRole.admin, required := true,
             timeout := 60 * 60 * 1000, approvedBy := none, approvedAt := none },
           { level := 3, role := UserRole.superadmin, required := false,
             timeout := 2 * 60 * 60 * 1000, approvedBy := none, approvedAt := none }] ∧
        wf.requiredApprovals = 2) ∧
      (userDV.role ≠ UserRole.developer →
        wf.stages =
          [{ level := 2, role := UserRole.admin, required := true,
             timeout := 60 * 60 * 1000, approvedBy := none, approvedAt := none },
           { level := 3, role := UserRole.superadmin, required := false,
             timeout := 2 * 60 * 60 * 1000, approvedBy := none, approvedAt := none }] ∧
        wf.requiredApprovals = 1) :=
  engC6_createWorkflow_stages (mkEngine [userDV]) "t9" "dv" userDV (by rfl)


/-! ### Claim C8: failed approve and reject leave the engine unchanged -/

/-- C8: whenever approve or reject fails (unknown workflow, unknown user,
out-of-range stage, or a user whose role cannot approve the current stage),
the whole engine state (workflows and user registry) is returned exactly as
it was: every check precedes every mutation. -/
theorem engC8_failed_ops_preserve_state (s : EngineState) (now : Nat)
    (taskId userId reason : String) :
    (∀ e : EngineError, (approve s now taskId userId).2 = Except.error e →
      (approve s now taskId userId).1 = s) ∧
    (∀ e : EngineError, (reject s taskId userId reason).2 = Except.error e →
      (reject s taskId userId reason).1 = s) := by
  constructor
  · intro e he
    cases hw : mapLookup s.workflows taskId with
    | none => simp [approve, hw]
    | some wf =>
      cases hu : mapLookup s.users userId with
      | none => simp [approve, hw, hu]
      | some u =>
        cases hst : wf.stages[wf.currentStage]? with
        | none => simp [approve, hw, hu, hst]
        | some st =>
          by_cases hc : canApprove u st = true
          · simp [approve, hw, hu, hst, hc] at he
          · simp [approve, hw, hu, hst, hc]
  · intro e he
    cases hw : mapLookup s.workflows taskId with
    | none => simp [reject, hw]
    | some wf =>
      cases hu : mapLookup s.users userId with
      | none => simp [reject, hw, hu]
      | some u => simp [reject, hw, hu] at he

/-- Witness for C8: approve and reject on an empty engine fail and leave the
state unchanged. -/
theorem engC8_witness :
    (approve (mkEngine []) 0 "t" "u").1 = mkEngine [] ∧
    (reject (mkEngine []) "t" "u" "r").1 = mkEngine [] :=
  ⟨(engC8_failed_ops_preserve_state (mkEngine []) 0 "t" "u" "r").1
      EngineError.unknownWorkflow (by rfl),
    (engC8_failed_ops_preserve_state (mkEngine []) 0 "t" "u" "r").2
      EngineError.unknownWorkflow (by rfl)⟩

/-! ### Claim C10: emergencyApprove only touches the status field -/

/-- C10: for every stored workflow and registered superadmin caller,
emergencyApprove succeeds with true and only mutates the status of that one
workflow: its stages (with all their approvedBy/approvedAt), currentStage,
requiredApprovals and taskId are unchanged, every other workflow entry is
unchanged, and the user registry is unchanged. -/
theorem engC10_emergency_frame (s : EngineState) (taskId userId : String)
    (wf : ApprovalWorkflow) (u : User)
    (hw : mapLookup s.workflows taskId = some wf)
    (hu : mapLookup s.users userId = some u)
    (hrole : u.role = UserRole.superadmin) :
    (emergencyApprove s taskId userId).2 = Except.ok true ∧
    (emergencyApprove s taskId userId).1.users = s.users ∧
    (∃ wf₂, mapLookup (emergencyApprove s taskId userId).1.workflows taskId = some wf₂ ∧
      wf₂.status = WorkflowStatus.approved ∧ wf₂.stages = wf.stages ∧
      wf₂.currentStage = wf.currentStage ∧ wf₂.requiredApprovals = wf.requiredApprovals ∧
      wf₂.taskId = wf.taskId) ∧
    (∀ other, other ≠ taskId →
      mapLookup (emergencyApprove s taskId userId).1.workflows other =
        mapLookup s.workflows other) := by
  have he : emergencyApprove s taskId userId =
      ({ s with workflows :=
          mapSet s.workflows taskId { wf with status := WorkflowStatus.approved } },
        Except.ok true) := by
    simp [emergencyApprove, hw, hu, hrole]
  rw [he]
  refine ⟨rfl, rfl, ⟨{ wf with status := WorkflowStatus.approved },
    by simp, rfl, rfl, rfl, rfl, rfl⟩, ?_⟩
  intro other hne
  exact mapLookup_mapSet_ne _ _ (Ne.symm hne)

/-- Witness for C10 at a concrete engine state. -/
theorem engC10_witness :
    (emergencyApprove engC10state "t1" "sa").2 = Except.ok true ∧
    (emergencyApprove engC10state "t1" "sa").1.users = engC10state.users ∧
    (∃ wf₂, mapLookup (emergencyApprove engC10state "t1" "sa").1.workflows "t1" = some wf₂ ∧
      wf₂.status = WorkflowStatus.approved ∧ wf₂.stages = wfPend.stages ∧
      wf₂.currentStage = wfPend.currentStage ∧
      wf₂.requiredApprovals = wfPend.requiredApprovals ∧
      wf₂.taskId = wfPend.taskId) ∧
    (∀ other, other ≠ "t1" →
      mapLookup (emergencyApprove engC10state "t1" "sa").1.workflows other =
        mapLookup engC10state.workflows other) :=
  engC10_emergency_frame engC10state "t1" "sa" wfPend userSA (by rfl) (by rfl) (by rfl)

/-! ### Claim C3: are approved and rejected terminal? -/

/-- C3 counterexample: a workflow brought to status approved (by a
registered superadmin via emergencyApprove) is moved to status rejected by a
subsequent reject call from that same registered user, so a transition does
leave approved, contradicting the claim. -/
theorem engC3_counterexample :
    ((mapLookup ((emergencyApprove (createWorkflow (mkEngine [userSA]) "t1" "sa").1
          "t1" "sa").1).workflows "t1").map ApprovalWorkflow.status =
      some WorkflowStatus.approved) ∧
    ((mapLookup ((reject (emergencyApprove (createWorkflow (mkEngine [userSA]) "t1" "sa").1
          "t1" "sa").1 "t1" "sa" "no").1).workflows "t1").map ApprovalWorkflow.status =
      some WorkflowStatus.rejected) :=
  ⟨rfl, rfl⟩

/-- C3 (amended): neither approved nor rejected is terminal, because the
operations never inspect the current status: a successful reject always
forces status rejected (even on an approved workflow), and a successful
emergencyApprove by a registered superadmin always forces status approved
(even on a rejected workflow). -/
theorem engC3_status_not_terminal (s : EngineState) (taskId userId reason : String)
    (wf : ApprovalWorkflow) (u : User)
    (hw : mapLookup s.workflows taskId = some wf)
    (hu : mapLookup s.users userId = some u) :
    (∃ wf₂, mapLookup ((reject s taskId userId reason).1).workflows taskId = some wf₂ ∧
      wf₂.status = WorkflowStatus.rejected) ∧
    (u.role = UserRole.superadmin →
      ∃ wf₃, mapLookup ((emergencyApprove s taskId userId).1).workflows taskId = some wf₃ ∧
        wf₃.status = WorkflowStatus.approved) := by
  constructor
  · refine ⟨{ wf with status := WorkflowStatus.rejected }, ?_, rfl⟩
    simp [reject, hw, hu]
  · intro hrole
    refine ⟨{ wf with status := WorkflowStatus.approved }, ?_, rfl⟩
    simp [emergencyApprove, hw, hu, hrole]

/-- Witness for the amended C3 on a workflow that is already approved. -/
theorem engC3_witness :
    (∃ wf₂, mapLookup ((reject
        (emergencyApprove (createWorkflow (mkEngine [userSA]) "t2" "sa").1 "t2" "sa").1
        "t2" "sa" "no").1).workflows "t2" = some wf₂ ∧
      wf₂.status = WorkflowStatus.rejected) ∧
    (userSA.role = UserRole.superadmin →
      ∃ wf₃, mapLookup ((emergencyApprove
          (emergencyApprove (createWorkflow (mkEngine [userSA]) "t2" "sa").1 "t2" "sa").1
          "t2" "sa").1).workflows "t2" = some wf₃ ∧
        wf₃.status = WorkflowStatus.approved) :=
  engC3_status_not_terminal
    (emergencyApprove (createWorkflow (mkEngine [userSA]) "t2" "sa").1 "t2" "sa").1
    "t2" "sa" "no"
    { taskId := "t2", stages := buildApprovalStages UserRole.superadmin, currentStage := 0,
      requiredApprovals := 1, status := WorkflowStatus.approved }
    userSA (by rfl) (by rfl)


/-! ### Evaluation lemmas for advanceWorkflow on a three-stage workflow -/

theorem advanceWorkflow_three_at_zero (d a ss : ApprovalStage) (wf : ApprovalWorkflow)
    (hw : wf.stages = [d, a, ss]) (hc : wf.currentStage = 0) (ha : a.required = true) :
    advanceWorkflow wf = ({ wf with currentStage := 1 }, false) := by
  rw [advanceWorkflow]
  simp only [hw, hc]
  simp [ha, hw, hc]

theorem advanceWorkflow_three_at_one (d a ss : ApprovalStage) (wf : ApprovalWorkflow)
    (hw : wf.stages = [d, a, ss]) (hc : wf.currentStage = 1) (hss : ss.required = false) :
    advanceWorkflow wf =
      ({ wf with currentStage := 2, status := WorkflowStatus.approved }, true) := by
  rw [advanceWorkflow]
  simp only [hw, hc]
  rw [advanceWorkflow]
  simp [hss, hw]



/-! ### Claim C5: developer workflow approved after developer and admin stages -/

/-- C5: for a workflow created for a registered developer requester,
approving the developer stage (every role qualifies for a developer-level
stage under canApprove) and then the admin stage (by an admin or superadmin)
brings the workflow to status approved with the optional superadmin stage
skipped (never stamped), and the second approve call returns true while the
first returns false. -/
theorem engC5_developer_flow (s : EngineState) (now₁ now₂ : Nat)
    (taskId requesterId approver₁ approver₂ : String)
    (requester u₁ u₂ : User)
    (hreq : mapLookup s.users requesterId = some requester)
    (hrole : requester.role = UserRole.developer)
    (hu₁ : mapLookup s.users approver₁ = some u₁)
    (hu₂ : mapLookup s.users approver₂ = some u₂)
    (hq₂ : u₂.role = UserRole.admin ∨ u₂.role = UserRole.superadmin) :
    (approve (createWorkflow s taskId requesterId).1 now₁ taskId approver₁).2 =
      Except.ok false ∧
    (approve (approve (createWorkflow s taskId requesterId).1 now₁ taskId approver₁).1
        now₂ taskId approver₂).2 = Except.ok true ∧
    (∃ wf, mapLookup (approve (approve (createWorkflow s taskId requesterId).1 now₁ taskId
        approver₁).1 now₂ taskId approver₂).1.workflows taskId = some wf ∧
      wf.status = WorkflowStatus.approved ∧
      (wf.stages[2]?).map ApprovalStage.approvedBy = some none) := by
  have hcw : createWorkflow s taskId requesterId =
      ({ s with
          workflows :=
            mapSet s.workflows taskId
              (wfDev taskId [stageDev, stageAdmin, stageSuper] 0 WorkflowStatus.pending) },
        Except.ok (wfDev taskId [stageDev, stageAdmin, stageSuper] 0 WorkflowStatus.pending)) := by
    simp [createWorkflow, hreq, hrole, buildApprovalStages, wfDev, stageDev, stageAdmin,
      stageSuper]
  have hcd : canApprove u₁ stageDev = true := canApprove_of_dev_stage _ _ rfl
  have hca : canApprove u₂ stageAdmin = true := canApprove_of_admin_stage _ _ hq₂ rfl
  have hadv₁ : advanceWorkflow
      (wfDev taskId [stampStage stageDev approver₁ now₁, stageAdmin, stageSuper] 0
        WorkflowStatus.pending) =
      (wfDev taskId [stampStage stageDev approver₁ now₁, stageAdmin, stageSuper] 1
        WorkflowStatus.pending, false) :=
    advanceWorkflow_three_at_zero _ _ _ _ rfl rfl rfl
  have h₁ : approve (createWorkflow s taskId requesterId).1 now₁ taskId approver₁ =
      ({ s with
          workflows :=
            mapSet (mapSet s.workflows taskId
                (wfDev taskId [stageDev, stageAdmin, stageSuper] 0 WorkflowStatus.pending))
              taskId
              (wfDev taskId [stampStage stageDev approver₁ now₁, stageAdmin, stageSuper] 1
                WorkflowStatus.pending) },
        Except.ok false) := by
    rw [hcw]
    simp only [approve, mapLookup_mapSet_self]
    simp only [wfDev, stampStage] at hadv₁
    simp [hu₁, hcd, hadv₁, wfDev, stampStage, List.set]
  have hadv₂ : advanceWorkflow
      (wfDev taskId [stampStage stageDev approver₁ now₁,
        stampStage stageAdmin approver₂ now₂, stageSuper] 1 WorkflowStatus.pending) =
      (wfDev taskId [stampStage stageDev approver₁ now₁,
        stampStage stageAdmin approver₂ now₂, stageSuper] 2 WorkflowStatus.approved, true) :=
    advanceWorkflow_three_at_one _ _ _ _ rfl rfl rfl
  have h₂ : approve (approve (createWorkflow s taskId requesterId).1 now₁ taskId approver₁).1
      now₂ taskId approver₂ =
      ({ s with
          workflows :=
            mapSet (mapSet (mapSet s.workflows taskId
                  (wfDev taskId [stageDev, stageAdmin, stageSuper] 0 WorkflowStatus.pending))
                taskId
                (wfDev taskId [stampStage stageDev approver₁ now₁, stageAdmin, stageSuper] 1
                  WorkflowStatus.pending))
              taskId
              (wfDev taskId [stampStage stageDev approver₁ now₁,
                stampStage stageAdmin approver₂ now₂, stageSuper] 2 WorkflowStatus.approved) },
        Except.ok true) := by
    rw [h₁]
    simp only [approve, mapLookup_mapSet_self]
    simp only [wfDev, stampStage] at hadv₂
    simp [hu₂, hca, hadv₂, wfDev, stampStage, List.set]
  refine ⟨by rw [h₁], by rw [h₂], ?_⟩
  rw [h₂]
  refine ⟨wfDev taskId [stampStage stageDev approver₁ now₁,
    stampStage stageAdmin approver₂ now₂, stageSuper] 2 WorkflowStatus.approved,
    by simp, rfl, rfl⟩

/-- Witness for C5 at a concrete engine with a developer requester, a
developer first approver and an admin second approver. -/
theorem engC5_witness :
    (approve (createWorkflow (mkEngine [userSA, userAD, userDV]) "t5" "dv").1 11 "t5" "dv").2 =
      Except.ok false ∧
    (approve (approve (createWorkflow (mkEngine [userSA, userAD, userDV]) "t5" "dv").1
        11 "t5" "dv").1 12 "t5" "ad").2 = Except.ok true ∧
    (∃ wf, mapLookup (approve (approve (createWorkflow (mkEngine [userSA, userAD, userDV])
        "t5" "dv").1 11 "t5" "dv").1 12 "t5" "ad").1.workflows "t5" = some wf ∧
      wf.status = WorkflowStatus.approved ∧
      (wf.stages[2]?).map ApprovalStage.approvedBy = some none) :=
  engC5_developer_flow (mkEngine [userSA, userAD, userDV]) 11 12 "t5" "dv" "dv" "ad"
    userDV userDV userAD (by rfl) (by rfl) (by rfl) (by rfl) (Or.inl (by rfl))


/-! ### The admission test: canProcessTask matches the spec wording -/

theorem find?_of_prefix_false {α : Type} (p : α → Bool) (pre post : List α) (t : α)
    (hpre : ∀ u ∈ pre, p u = false) (ht : p t = true) :
    List.find? p (pre ++ t :: post) = some t := by
  induction pre with
  | nil => simp [List.find?_cons, ht]
  | cons u rest ih =>
    have hu : p u = false := hpre u (List.mem_cons_self _ _)
    simp only [List.cons_append, List.find?_cons, hu]
    exact ih (fun v hv => hpre v (List.mem_cons_of_mem _ hv))

theorem find?_id_unique {queue : List Task} (hnd : (queue.map Task.id).Nodup)
    {u : Task} {i : String} (hu : u ∈ queue) (hid : u.id = i) :
    queue.find? (fun t => decide (t.id = i)) = some u := by
  induction queue with
  | nil => simp at hu
  | cons v rest ih =>
    simp only [List.map_cons, List.nodup_cons] at hnd
    rcases List.mem_cons.mp hu with rfl | hu₂
    · simp [List.find?_cons, hid]
    · have hvi : v.id ≠ i := by
        intro he
        exact hnd.1 (he ▸ hid ▸ List.mem_map_of_mem Task.id hu₂)
      rw [List.find?_cons]
      have hd : decide (v.id = i) = false := by simpa using hvi
      simp only [hd]
      exact ih hnd.2 hu₂

theorem trackedLookup_eq_some_iff (s : SchedState) (hwf : WFIds s) (i : String) (u : Task) :
    trackedLookup s i = some u ↔ SpecTracked s i u := by
  obtain ⟨hnd, hkeys⟩ := hwf
  have hndq : (s.queue.map Task.id).Nodup := (List.nodup_append.mp hnd).1
  have hndp : (mapKeys s.processing).Nodup := (List.nodup_append.mp hnd).2.1
  have hdisj : ∀ x, x ∈ s.queue.map Task.id → x ∉ mapKeys s.processing := by
    intro x hx
    exact fun hp => ((List.nodup_append.mp hnd).2.2 hx) hp
  constructor
  · intro h
    cases hp : mapLookup s.processing i with
    | some dep =>
      have hu : dep = u := by
        simpa [trackedLookup, hp] using h
      subst hu
      have hmem := mapLookup_eq_some_mem hp
      have hid : dep.id = i := (hkeys (i, dep) hmem).symm
      exact ⟨Or.inr ⟨(i, dep), hmem, rfl⟩, hid⟩
    | none =>
      have hf : s.queue.find? (fun t => decide (t.id = i)) = some u := by
        simpa [trackedLookup, hp] using h
      have hmem := List.mem_of_find?_eq_some hf
      have hid : u.id = i := by
        have := List.find?_some hf
        simpa using this
      exact ⟨Or.inl hmem, hid⟩
  · rintro ⟨hmem | ⟨p, hp, hpu⟩, hid⟩
    · have hnone : mapLookup s.processing i = none := by
        rw [mapLookup_eq_none_iff]
        exact hdisj i (hid ▸ List.mem_map_of_mem Task.id hmem)
      simp only [trackedLookup, hnone]
      exact find?_id_unique hndq hmem hid
    · obtain ⟨pk, pv⟩ := p
      have hpv : pv = u := hpu
      have hpk : pk = pv.id := hkeys (pk, pv) hp
      have hmem₂ : (i, u) ∈ s.processing := by
        have h₂ := hp
        rw [hpk, hpv] at h₂
        rw [hid] at h₂
        exact h₂
      have hsome : mapLookup s.processing i = some u := mem_mapLookup_of_nodup hndp hmem₂
      simp [trackedLookup, hsome]

theorem canProcessTask_iff (s : SchedState) (t : Task) (hwf : WFIds s) :
    canProcessTask s t = true ↔ specAdmissible s t := by
  simp only [canProcessTask, Bool.and_eq_true, specAdmissible]
  constructor
  · rintro ⟨hdeps, hres⟩
    constructor
    · intro depId hdep u hu
      rw [List.isEmpty_iff] at hdeps
      have hnotin := List.filter_eq_nil.mp hdeps depId hdep
      rw [← trackedLookup_eq_some_iff s hwf depId u] at hu
      rw [hu] at hnotin
      simpa using hnotin
    · intro r hr tid htid
      have := List.all_eq_true.mp hres r hr
      rw [htid] at this
      simpa using this
  · rintro ⟨hdeps, hres⟩
    constructor
    · rw [List.isEmpty_iff, List.filter_eq_nil]
      intro depId hdep
      cases ht : trackedLookup s depId with
      | none => simp
      | some dep =>
        have := hdeps depId hdep dep ((trackedLookup_eq_some_iff s hwf depId dep).mp ht)
        simp [this]
    · rw [List.all_eq_true]
      intro r hr
      cases hl : mapLookup s.resourceLocks r with
      | none => simp
      | some tid => simpa using hres r hr tid hl


/-! ### Claim C1: admitNext admits exactly the first admissible task -/

/-- C1 counterexample: the admission test is not "no resource locked by a
different task".  In schedEmptyPre the resource r is locked by the
empty-string id, which differs from taskY.id, so under the claimed test the
backlog task taskY would be blocked; yet processNext admits it at once and
empties the backlog, because the guard at task-queue.ts:88 (lockingTaskId
&& lockingTaskId !== task.id) treats the falsy empty-string holder as no
lock at all. -/
theorem schedC1_counterexample :
    mapLookup schedEmptyPre.resourceLocks "r" = some "" ∧
    ("" : String) ≠ taskY.id ∧
    "r" ∈ taskY.resources ∧
    schedEmptyPre.queue = [taskY] ∧
    schedEmptyPre.processing.length < schedEmptyPre.maxConcurrent ∧
    (processNext schedEmptyPre 1).2 =
      some { taskY with status := TaskStatus.processing, startedAt := some 1 } ∧
    (processNext schedEmptyPre 1).1.queue = [] := by
  exact ⟨rfl, by decide, by decide, rfl, by decide, rfl, rfl⟩

/-- C1 (amended): below the concurrency ceiling, processNext admits exactly
the earliest task of the backlog passing the spec admission test
(dependencies completed or unknown, and no resource locked under a
non-empty id other than the task itself — the empty-string holder is falsy
in the source and is disregarded): the admitted task is the event payload
with status processing and startedAt stamped, it is entered into the
in-flight map, and the backlog keeps every skipped task, losing only the
admitted one. -/
theorem schedC1_admitNext_first (s : SchedState) (now : Nat)
    (pre post : List Task) (t : Task)
    (hwf : WFIds s)
    (hcap : s.processing.length < s.maxConcurrent)
    (hq : s.queue = pre ++ t :: post)
    (hpre : ∀ u ∈ pre, ¬ specAdmissible s u)
    (ht : specAdmissible s t) :
    (processNext s now).2 =
      some { t with status := TaskStatus.processing, startedAt := some now } ∧
    (processNext s now).1.queue = pre ++ post ∧
    (processNext s now).1.processing =
      s.processing ++
        [(t.id, { t with status := TaskStatus.processing, startedAt := some now })] := by
  obtain ⟨hnd, hkeys⟩ := hwf
  have hfind : s.queue.find? (fun task => canProcessTask s task) = some t := by
    rw [hq]
    apply find?_of_prefix_false
    · intro u hu
      cases hcu : canProcessTask s u with
      | false => rfl
      | true => exact absurd ((canProcessTask_iff s u ⟨hnd, hkeys⟩).mp hcu) (hpre u hu)
    · exact (canProcessTask_iff s t ⟨hnd, hkeys⟩).mpr ht
  have hndids := hnd
  rw [trackedIds, hq] at hndids
  simp only [List.map_append, List.map_cons] at hndids
  have hsplit := List.nodup_append.mp hndids
  have hsplitq := List.nodup_append.mp hsplit.1
  have htpre : t.id ∉ pre.map Task.id := by
    intro hmem
    exact (hsplitq.2.2 hmem) (List.mem_cons_self _ _)
  have htpost : t.id ∉ post.map Task.id := (List.nodup_cons.mp hsplitq.2.1).1
  have htproc : t.id ∉ mapKeys s.processing := by
    apply hsplit.2.2
    exact List.mem_append.mpr (Or.inr (List.mem_cons_self _ _))
  have hfpre : pre.filter (fun u => !decide (u.id = t.id)) = pre := by
    rw [List.filter_eq_self]
    intro u hu
    simp only [Bool.not_eq_eq_eq_not, Bool.not_true, decide_eq_false_iff_not]
    intro he
    exact htpre (he ▸ List.mem_map_of_mem Task.id hu)
  have hfpost : post.filter (fun u => !decide (u.id = t.id)) = post := by
    rw [List.filter_eq_self]
    intro u hu
    simp only [Bool.not_eq_eq_eq_not, Bool.not_true, decide_eq_false_iff_not]
    intro he
    exact htpost (he ▸ List.mem_map_of_mem Task.id hu)
  have hcond : ¬ s.maxConcurrent ≤ s.processing.length := by omega
  refine ⟨?_, ?_, ?_⟩
  · simp [processNext, if_neg hcond, hfind]
  · simp only [processNext, if_neg hcond, hfind, lockResources]
    rw [hq]
    simp [List.filter_append, hfpre, hfpost, List.filter_cons]
  · simp only [processNext, if_neg hcond, hfind, lockResources]
    exact mapSet_eq_append _ _ _ htproc

/-- Witness for C1: in schedC1state the blocked taskB is skipped and taskC,
second in the backlog, is the task admitted. -/
theorem schedC1_witness :
    (processNext schedC1state 7).2 =
      some { taskC with status := TaskStatus.processing, startedAt := some 7 } ∧
    (processNext schedC1state 7).1.queue = [taskB] ++ [] ∧
    (processNext schedC1state 7).1.processing =
      schedC1state.processing ++
        [(taskC.id, { taskC with status := TaskStatus.processing, startedAt := some 7 })] :=
  schedC1_admitNext_first schedC1state 7 [taskB] [] taskC
    (by constructor
        · decide
        · decide)
    (by decide) (by rfl)
    (by intro u hu
        have hu₂ : u = taskB := by
          cases hu with
          | head => rfl
          | tail _ h => cases h
        subst hu₂
        intro hspec
        have hc := (canProcessTask_iff schedC1state taskB (by constructor <;> decide)).mpr hspec
        revert hc
        decide)
    ((canProcessTask_iff schedC1state taskC (by constructor <;> decide)).mp (by decide))


/-! ### Behavior of the lock and unlock folds -/

theorem lockFold_lookup (resources : List String) (tid : String)
    (m : List (String × String)) (r : String) :
    mapLookup (resources.foldl (fun m₂ r₂ => mapSet m₂ r₂ tid) m) r =
      if r ∈ resources then some tid else mapLookup m r := by
  induction resources generalizing m with
  | nil => simp
  | cons a l ih =>
    simp only [List.foldl_cons, ih, mapLookup_mapSet, List.mem_cons]
    by_cases h₁ : r ∈ l
    · simp [h₁]
    · by_cases h₂ : a = r
      · simp [h₁, h₂]
      · have h₃ : ¬ r = a := fun hh => h₂ hh.symm
        simp [h₁, h₂, h₃]

theorem lockFold_keys_nodup (resources : List String) (tid : String)
    (m : List (String × String)) (h : (mapKeys m).Nodup) :
    (mapKeys (resources.foldl (fun m₂ r₂ => mapSet m₂ r₂ tid) m)).Nodup := by
  induction resources generalizing m with
  | nil => simpa using h
  | cons a l ih =>
    simp only [List.foldl_cons]
    exact ih (mapSet m a tid) (mapKeys_mapSet_nodup m a tid h)

theorem unlockFold_lookup (resources : List String) (tid : String)
    (m : List (String × String)) (r : String) :
    mapLookup (resources.foldl (fun m₂ r₂ =>
        match mapLookup m₂ r₂ with
        | some lockingTaskId => if lockingTaskId = tid then mapErase m₂ r₂ else m₂
        | none => m₂) m) r =
      if r ∈ resources ∧ mapLookup m r = some tid then none else mapLookup m r := by
  induction resources generalizing m with
  | nil => simp
  | cons a l ih =>
    simp only [List.foldl_cons]
    cases hma : mapLookup m a with
    | none =>
      simp only [hma]
      rw [ih]
      by_cases hra : r = a
      · subst hra
        simp [hma]
      · simp [List.mem_cons, hra]
    | some l₀ =>
      by_cases hl : l₀ = tid
      · simp only [hma]
        rw [if_pos hl, ih, mapLookup_mapErase]
        have hma₂ : mapLookup m a = some tid := by rw [hma, hl]
        by_cases hra : r = a
        · subst hra
          simp [hma₂, List.mem_cons]
        · have h₃ : ¬ a = r := fun hh => hra hh.symm
          simp [h₃, List.mem_cons, hra]
      · simp only [hma, if_neg hl]
        rw [ih]
        by_cases hra : r = a
        · subst hra
          simp [hma, hl, List.mem_cons]
        · simp [List.mem_cons, hra]

theorem unlockFold_sublist (resources : List String) (tid : String)
    (m : List (String × String)) :
    (resources.foldl (fun m₂ r₂ =>
        match mapLookup m₂ r₂ with
        | some lockingTaskId => if lockingTaskId = tid then mapErase m₂ r₂ else m₂
        | none => m₂) m).Sublist m := by
  induction resources generalizing m with
  | nil => simp
  | cons a l ih =>
    simp only [List.foldl_cons]
    cases hma : mapLookup m a with
    | none =>
      simp only [hma]
      exact ih m
    | some l₀ =>
      by_cases hl : l₀ = tid
      · simp only [hma, if_pos hl]
        exact (ih (mapErase m a)).trans (mapErase_sublist m a)
      · simp only [hma, if_neg hl]
        exact ih m

theorem map_filter_comm {α β : Type} (f : α → β) (p : β → Bool) (l : List α) :
    (l.filter (fun a => p (f a))).map f = (l.map f).filter p := by
  induction l with
  | nil => simp
  | cons a rest ih =>
    by_cases h : p (f a) = true
    · simp [List.filter_cons, h, ih]
    · simp only [Bool.not_eq_true] at h
      simp [List.filter_cons, h, ih]


/-! ### Preservation of the scheduler invariant -/

theorem SchedInv_processNext (s : SchedState) (now : Nat) (hinv : SchedInv s) :
    SchedInv (processNext s now).1 := by
  by_cases hcap : s.maxConcurrent ≤ s.processing.length
  · simpa [processNext, hcap] using hinv
  · cases hfind : s.queue.find? (fun task => canProcessTask s task) with
    | none => simpa [processNext, hcap, hfind] using hinv
    | some t =>
      have htq : t ∈ s.queue := List.mem_of_find?_eq_some hfind
      have hct : canProcessTask s t = true := by
        have := List.find?_some hfind
        simpa using this
      have hspec := (canProcessTask_iff s t ⟨hinv.nodupIds, hinv.procKeys⟩).mp hct
      have htid_q : t.id ∈ s.queue.map Task.id := List.mem_map_of_mem Task.id htq
      have hnds := List.nodup_append.mp (by simpa [trackedIds] using hinv.nodupIds)
      have htproc : t.id ∉ mapKeys s.processing := hnds.2.2 htid_q
      have hresnone : ∀ r ∈ t.resources, mapLookup s.resourceLocks r = none := by
        intro r hr
        cases hlr : mapLookup s.resourceLocks r with
        | none => rfl
        | some tid =>
          exfalso
          have htid := hspec.2 r hr tid hlr
          obtain ⟨p, hp, hpid, hpr⟩ := (hinv.lockChar r tid).mp hlr
          have hkey : p.1 = tid := by rw [hinv.procKeys p hp, hpid]
          have hmemk : tid ∈ mapKeys s.processing := hkey ▸ List.mem_map_of_mem Prod.fst hp
          rcases htid with htid | htid
          · have hmem₂ : tid ∈ trackedIds s := by
              rw [trackedIds]
              exact List.mem_append.mpr (Or.inr hmemk)
            exact hinv.idsNonempty tid hmem₂ htid
          · subst htid
            exact htproc hmemk
      have hstate : (processNext s now).1 =
          { queue := s.queue.filter (fun u => !decide (u.id = t.id)),
            processing := s.processing ++
              [(t.id, { t with status := TaskStatus.processing, startedAt := some now })],
            maxConcurrent := s.maxConcurrent,
            resourceLocks :=
              t.resources.foldl (fun m r => mapSet m r t.id) s.resourceLocks } := by
        simp [processNext, if_neg hcap, hfind, lockResources,
          mapSet_eq_append s.processing t.id
            ({ t with status := TaskStatus.processing, startedAt := some now }) htproc]
      rw [hstate]
      have hq₂ : (s.queue.filter (fun u => !decide (u.id = t.id))).map Task.id =
          (s.queue.map Task.id).filter (fun y => !decide (y = t.id)) :=
        map_filter_comm Task.id (fun y => !decide (y = t.id)) s.queue
      have hq₂mem : ∀ x, x ∈ (s.queue.map Task.id).filter (fun y => !decide (y = t.id)) →
          x ∈ s.queue.map Task.id ∧ x ≠ t.id := by
        intro x hx
        have := List.mem_filter.mp hx
        refine ⟨this.1, ?_⟩
        have hb := this.2
        simpa using hb
      constructor
      · show ((s.queue.filter (fun u => !decide (u.id = t.id))).map Task.id ++
          mapKeys (s.processing ++
            [(t.id, { t with status := TaskStatus.processing, startedAt := some now })])).Nodup
        rw [hq₂]
        have hkeys₂ : mapKeys (s.processing ++
            [(t.id, { t with status := TaskStatus.processing, startedAt := some now })]) =
            mapKeys s.processing ++ [t.id] := by
          simp [mapKeys]
        rw [hkeys₂, List.nodup_append]
        refine ⟨?_, ?_, ?_⟩
        · exact (List.filter_sublist (s.queue.map Task.id)).nodup hnds.1
        · rw [List.nodup_append]
          refine ⟨hnds.2.1, List.nodup_singleton _, ?_⟩
          simpa [List.disjoint_singleton] using htproc
        · intro x hx
          obtain ⟨hxq, hxt⟩ := hq₂mem x hx
          simp only [List.mem_append, List.mem_singleton]
          rintro (hxp | hxeq)
          · exact hnds.2.2 hxq hxp
          · exact hxt hxeq
      · intro p hp
        rcases List.mem_append.mp hp with hp₁ | hp₁
        · exact hinv.procKeys p hp₁
        · have : p = (t.id, { t with status := TaskStatus.processing, startedAt := some now }) := by
            simpa using hp₁
          subst this
          rfl
      · exact lockFold_keys_nodup t.resources t.id s.resourceLocks hinv.lockKeys
      · intro r tid
        rw [lockFold_lookup]
        constructor
        · intro hlk
          by_cases hr : r ∈ t.resources
          · rw [if_pos hr] at hlk
            have htid : tid = t.id := by
              have := hlk
              simp only [Option.some.injEq] at this
              exact this.symm
            refine ⟨(t.id, { t with status := TaskStatus.processing, startedAt := some now }),
              List.mem_append.mpr (Or.inr (List.mem_singleton.mpr rfl)), ?_, hr⟩
            simp [htid]
          · rw [if_neg hr] at hlk
            obtain ⟨p, hp, hpid, hpr⟩ := (hinv.lockChar r tid).mp hlk
            exact ⟨p, List.mem_append.mpr (Or.inl hp), hpid, hpr⟩
        · rintro ⟨p, hp, hpid, hpr⟩
          rcases List.mem_append.mp hp with hp₁ | hp₁
          · have hlk := (hinv.lockChar r tid).mpr ⟨p, hp₁, hpid, hpr⟩
            by_cases hr : r ∈ t.resources
            · exact absurd (hresnone r hr ▸ hlk) (by simp)
            · rw [if_neg hr]
              exact hlk
          · have hpeq : p = (t.id,
                { t with status := TaskStatus.processing, startedAt := some now }) := by
              simpa using hp₁
            subst hpeq
            have htid : tid = t.id := by simpa using hpid.symm
            have hr : r ∈ t.resources := by simpa using hpr
            rw [if_pos hr, htid]
      · intro u hu
        have := List.mem_filter.mp hu
        exact hinv.queueStatus u this.1
      · intro p hp
        rcases List.mem_append.mp hp with hp₁ | hp₁
        · exact hinv.procStatus p hp₁
        · have : p = (t.id, { t with status := TaskStatus.processing, startedAt := some now }) := by
            simpa using hp₁
          subst this
          rfl
      · simp only [List.length_append, List.length_singleton]
        omega
      · intro i hi
        have hqne : ∀ j ∈ s.queue.map Task.id, j ≠ "" := by
          intro j hj
          refine hinv.idsNonempty j ?_
          rw [trackedIds]
          exact List.mem_append.mpr (Or.inl hj)
        have hpne : ∀ j ∈ mapKeys s.processing, j ≠ "" := by
          intro j hj
          refine hinv.idsNonempty j ?_
          rw [trackedIds]
          exact List.mem_append.mpr (Or.inr hj)
        simp only [trackedIds, mapKeys, List.map_append, List.map_cons, List.map_nil,
          List.mem_append, List.mem_singleton] at hi
        rcases hi with hi | hi | hi
        · rw [show (List.filter (fun u => !decide (u.id = t.id)) s.queue).map Task.id =
              (s.queue.map Task.id).filter (fun y => !decide (y = t.id)) from
              map_filter_comm Task.id (fun y => !decide (y = t.id)) s.queue] at hi
          exact hqne i (List.mem_filter.mp hi).1
        · exact hpne i hi
        · subst hi
          exact hqne t.id htid_q


theorem SchedInv_addTask (s : SchedState) (task : Task) (now : Nat) (hinv : SchedInv s)
    (hst : task.status = TaskStatus.queued) (hfresh : task.id ∉ trackedIds s)
    (htne : task.id ≠ "") :
    SchedInv (addTask s task now).1 := by
  have hstep : addTask s task now = processNext
      { s with queue := sortQueue (s.queue ++
          [{ task with dependencies := task.dependencies ++ checkResourceConflicts s task }]) }
      now := rfl
  rw [hstep]
  apply SchedInv_processNext
  have hperm : List.Perm
      ((sortQueue (s.queue ++
        [{ task with dependencies := task.dependencies ++ checkResourceConflicts s task }])).map
          Task.id)
      ((s.queue ++
        [{ task with dependencies := task.dependencies ++ checkResourceConflicts s task }]).map
          Task.id) :=
    (sortQueue_perm _).map Task.id
  have hfq : task.id ∉ s.queue.map Task.id := fun h =>
    hfresh (List.mem_append.mpr (Or.inl h))
  have hfp : task.id ∉ mapKeys s.processing := fun h =>
    hfresh (List.mem_append.mpr (Or.inr h))
  have hnds := List.nodup_append.mp (by simpa [trackedIds] using hinv.nodupIds)
  constructor
  · show ((sortQueue (s.queue ++
      [{ task with dependencies := task.dependencies ++ checkResourceConflicts s task }])).map
        Task.id ++ mapKeys s.processing).Nodup
    rw [List.nodup_append]
    refine ⟨?_, hnds.2.1, ?_⟩
    · apply hperm.nodup_iff.mpr
      simp only [List.map_append, List.map_cons, List.map_nil]
      rw [List.nodup_append]
      refine ⟨hnds.1, List.nodup_singleton _, ?_⟩
      intro x hx
      simp only [List.mem_singleton]
      intro hxe
      subst hxe
      exact hfq hx
    · intro x hx hxp
      have hx₂ := hperm.mem_iff.mp hx
      simp only [List.map_append, List.map_cons, List.map_nil, List.mem_append,
        List.mem_singleton] at hx₂
      rcases hx₂ with h | h
      · exact hnds.2.2 h hxp
      · subst h
        exact hfp hxp
  · exact hinv.procKeys
  · exact hinv.lockKeys
  · exact hinv.lockChar
  · intro u hu
    have hu₂ := (mem_sortQueue _ u).mp hu
    rcases List.mem_append.mp hu₂ with h | h
    · exact hinv.queueStatus u h
    · have hue : u = { task with
          dependencies := task.dependencies ++ checkResourceConflicts s task } := by
        simpa using h
      subst hue
      simpa using hst
  · exact hinv.procStatus
  · exact hinv.procBound
  · intro i hi
    rw [trackedIds] at hi
    rcases List.mem_append.mp hi with hiq | hip
    · have hi₂ := hperm.mem_iff.mp hiq
      simp only [List.map_append, List.map_cons, List.map_nil, List.mem_append,
        List.mem_singleton] at hi₂
      rcases hi₂ with h | h
      · exact hinv.idsNonempty i (List.mem_append.mpr (Or.inl h))
      · subst h
        exact htne
    · exact hinv.idsNonempty i (List.mem_append.mpr (Or.inr hip))

theorem SchedInv_completeTask (s : SchedState) (taskId : String) (st : TaskStatus) (now : Nat)
    (hinv : SchedInv s) : SchedInv (completeTask s taskId st now).1 := by
  cases hlk : mapLookup s.processing taskId with
  | none => simpa [completeTask, hlk] using hinv
  | some task =>
    have hmem : (taskId, task) ∈ s.processing := mapLookup_eq_some_mem hlk
    have hkey : taskId = task.id := hinv.procKeys (taskId, task) hmem
    have hnds := List.nodup_append.mp (by simpa [trackedIds] using hinv.nodupIds)
    have hheld : ∀ r ∈ task.resources, mapLookup s.resourceLocks r = some task.id := by
      intro r hr
      exact (hinv.lockChar r task.id).mpr ⟨(taskId, task), hmem, rfl, hr⟩
    have hstate : (completeTask s taskId st now).1 = (processNext
        { queue := s.queue,
          processing := mapErase s.processing taskId,
          maxConcurrent := s.maxConcurrent,
          resourceLocks := task.resources.foldl (fun m r =>
            match mapLookup m r with
            | some lockingTaskId => if lockingTaskId = task.id then mapErase m r else m
            | none => m) s.resourceLocks } now).1 := by
      simp [completeTask, hlk, unlockResources]
    rw [hstate]
    apply SchedInv_processNext
    constructor
    · show (s.queue.map Task.id ++ mapKeys (mapErase s.processing taskId)).Nodup
      have hsub : (mapKeys (mapErase s.processing taskId)).Sublist (mapKeys s.processing) :=
        (mapErase_sublist s.processing taskId).map Prod.fst
      have hsub₂ := List.Sublist.append_left hsub (s.queue.map Task.id)
      exact hsub₂.nodup (by simpa [trackedIds] using hinv.nodupIds)
    · intro p hp
      exact hinv.procKeys p ((mem_mapErase _ _ p).mp hp).1
    · exact ((unlockFold_sublist task.resources task.id s.resourceLocks).map Prod.fst).nodup
        hinv.lockKeys
    · intro r tid
      rw [unlockFold_lookup]
      constructor
      · intro h
        by_cases hr : r ∈ task.resources
        · rw [if_pos ⟨hr, hheld r hr⟩] at h
          exact absurd h (by simp)
        · rw [if_neg (fun hc => hr hc.1)] at h
          obtain ⟨p, hp, hpid, hpr⟩ := (hinv.lockChar r tid).mp h
          refine ⟨p, (mem_mapErase _ _ p).mpr ⟨hp, ?_⟩, hpid, hpr⟩
          intro hpk
          have hpkeys : (mapKeys s.processing).Nodup := hnds.2.1
          have hp₂ : (taskId, p.2) ∈ s.processing := by
            rw [← hpk]
            exact hp
          have hveq : p.2 = task := mapKeys_value_unique hpkeys hp₂ hmem
          apply hr
          exact hveq ▸ hpr
      · rintro ⟨p, hp, hpid, hpr⟩
        obtain ⟨hpmem, hpk⟩ := (mem_mapErase _ _ p).mp hp
        have h := (hinv.lockChar r tid).mpr ⟨p, hpmem, hpid, hpr⟩
        by_cases hr : r ∈ task.resources
        · exfalso
          have hh := hheld r hr
          rw [h] at hh
          have htid : tid = task.id := by injection hh
          apply hpk
          rw [hinv.procKeys p hpmem, hpid, htid, ← hkey]
        · rw [if_neg (fun hc => hr hc.1)]
          exact h
    · exact hinv.queueStatus
    · intro p hp
      exact hinv.procStatus p ((mem_mapErase _ _ p).mp hp).1
    · calc (mapErase s.processing taskId).length
          ≤ s.processing.length := (mapErase_sublist _ _).length_le
        _ ≤ s.maxConcurrent := hinv.procBound
    · intro i hi
      rw [trackedIds] at hi
      rcases List.mem_append.mp hi with hiq | hip
      · exact hinv.idsNonempty i (List.mem_append.mpr (Or.inl hiq))
      · have hsub : (mapKeys (mapErase s.processing taskId)).Sublist
            (mapKeys s.processing) :=
          (mapErase_sublist s.processing taskId).map Prod.fst
        exact hinv.idsNonempty i (List.mem_append.mpr (Or.inr (hsub.subset hip)))

theorem failTask_eq_completeTask (s : SchedState) (taskId : String) (now : Nat) :
    failTask s taskId now = completeTask s taskId TaskStatus.failed now := rfl

/-- Every scheduler state reachable with non-empty submitted task ids
satisfies the full inductive invariant. -/
theorem schedReachNE_inv (s : SchedState) (h : SchedReachNE s) : SchedInv s := by
  induction h with
  | init max => constructor <;> simp [mkQueue, trackedIds, mapKeys]
  | submit s task now hr hst hfresh htne ih =>
    exact SchedInv_addTask s task now ih hst hfresh htne
  | admitNext s now hr ih => exact SchedInv_processNext s now ih
  | complete s taskId st now hr ih => exact SchedInv_completeTask s taskId st now ih
  | fail s taskId now hr ih =>
    rw [failTask_eq_completeTask]
    exact SchedInv_completeTask s taskId TaskStatus.failed now ih

theorem WeakInv_processNext (s : SchedState) (now : Nat) (hw : WeakInv s) :
    WeakInv (processNext s now).1 := by
  obtain ⟨hq, hp, hb⟩ := hw
  by_cases hcap : s.maxConcurrent ≤ s.processing.length
  · simpa [processNext, hcap] using ⟨hq, hp, hb⟩
  · cases hfind : s.queue.find? (fun task => canProcessTask s task) with
    | none => simpa [processNext, hcap, hfind] using ⟨hq, hp, hb⟩
    | some t =>
      have hstate : (processNext s now).1 =
          { queue := s.queue.filter (fun u => !decide (u.id = t.id)),
            processing := mapSet s.processing t.id
              { t with status := TaskStatus.processing, startedAt := some now },
            maxConcurrent := s.maxConcurrent,
            resourceLocks :=
              t.resources.foldl (fun m r => mapSet m r t.id) s.resourceLocks } := by
        simp [processNext, if_neg hcap, hfind, lockResources]
      rw [hstate]
      refine ⟨?_, ?_, ?_⟩
      · intro u hu
        exact hq u (List.mem_filter.mp hu).1
      · intro p hp₂
        rcases mem_mapSet s.processing t.id _ p hp₂ with h | h
        · exact hp p h
        · subst h
          rfl
      · show (mapSet s.processing t.id
            { t with status := TaskStatus.processing, startedAt := some now }).length ≤
          s.maxConcurrent
        have hle := length_mapSet_le s.processing t.id
          { t with status := TaskStatus.processing, startedAt := some now }
        omega

theorem WeakInv_addTask (s : SchedState) (task : Task) (now : Nat) (hw : WeakInv s)
    (hst : task.status = TaskStatus.queued) : WeakInv (addTask s task now).1 := by
  obtain ⟨hq, hp, hb⟩ := hw
  have hstep : addTask s task now = processNext
      { s with queue := sortQueue (s.queue ++
          [{ task with dependencies := task.dependencies ++ checkResourceConflicts s task }]) }
      now := rfl
  rw [hstep]
  apply WeakInv_processNext
  refine ⟨?_, hp, hb⟩
  intro u hu
  have hu₂ := (mem_sortQueue _ u).mp hu
  rcases List.mem_append.mp hu₂ with h | h
  · exact hq u h
  · have hue : u = { task with
        dependencies := task.dependencies ++ checkResourceConflicts s task } := by
      simpa using h
    subst hue
    simpa using hst

theorem WeakInv_completeTask (s : SchedState) (taskId : String) (st : TaskStatus) (now : Nat)
    (hw : WeakInv s) : WeakInv (completeTask s taskId st now).1 := by
  obtain ⟨hq, hp, hb⟩ := hw
  cases hlk : mapLookup s.processing taskId with
  | none => simpa [completeTask, hlk] using ⟨hq, hp, hb⟩
  | some task =>
    have hstate : (completeTask s taskId st now).1 = (processNext
        { queue := s.queue,
          processing := mapErase s.processing taskId,
          maxConcurrent := s.maxConcurrent,
          resourceLocks := task.resources.foldl (fun m r =>
            match mapLookup m r with
            | some lockingTaskId => if lockingTaskId = task.id then mapErase m r else m
            | none => m) s.resourceLocks } now).1 := by
      simp [completeTask, hlk, unlockResources]
    rw [hstate]
    apply WeakInv_processNext
    refine ⟨hq, ?_, ?_⟩
    · intro p hp₂
      exact hp p ((mem_mapErase _ _ p).mp hp₂).1
    · calc (mapErase s.processing taskId).length
          ≤ s.processing.length := (mapErase_sublist _ _).length_le
        _ ≤ s.maxConcurrent := hb

/-- Every reachable scheduler state, empty-string submitted ids included,
keeps the status discipline and the concurrency bound. -/
theorem schedReach_weakInv (s : SchedState) (h : SchedReach s) : WeakInv s := by
  induction h with
  | init max => exact ⟨by simp [mkQueue], by simp [mkQueue], by simp [mkQueue]⟩
  | submit s task now hr hst hfresh ih => exact WeakInv_addTask s task now ih hst
  | admitNext s now hr ih => exact WeakInv_processNext s now ih
  | complete s taskId st now hr ih => exact WeakInv_completeTask s taskId st now ih
  | fail s taskId now hr ih =>
    rw [failTask_eq_completeTask]
    exact WeakInv_completeTask s taskId TaskStatus.failed now ih


/-! ### Claim C2: the lock table matches the in-flight tasks exactly -/

/-- C2 counterexample: the lock-to-in-flight correspondence fails on the
unrestricted reachable states.  Submitting taskE (id the empty string,
wanting r) to a fresh two-slot queue admits it and locks r by the empty
string; the truthiness guards of checkResourceConflicts (task-queue.ts:62)
and canProcessTask (task-queue.ts:88) disregard the falsy empty-string
holder, so the subsequent submission of taskY (also wanting r) is admitted
at once and lockResources overwrites the lock.  In the resulting reachable
state the in-flight empty-id task still lists r among its resources, yet
the lock table maps r to y, not to the empty string: the claimed
characterisation of the lock table is false there. -/
theorem schedC2_counterexample :
    SchedReach schedEmptyOverwrite ∧
    (∃ p ∈ schedEmptyOverwrite.processing, p.2.id = "" ∧ "r" ∈ p.2.resources) ∧
    mapLookup schedEmptyOverwrite.resourceLocks "r" = some "y" ∧
    ("y" : String) ≠ "" := by
  refine ⟨?_, ?_, rfl, by decide⟩
  · exact SchedReach.submit schedEmptyLock taskY 1
      (SchedReach.submit (mkQueue 2) taskE 0 (SchedReach.init 2) (by rfl) (by decide))
      (by rfl) (by decide)
  · exact ⟨("", { taskE with status := TaskStatus.processing, startedAt := some 0 }),
      by decide, by decide, by decide⟩

/-- C2 (amended): in every scheduler state reachable through submissions
whose task ids are non-empty strings, each resource has at most one entry
in the lock table (its keys are duplicate-free, and a lookup returns at
most one holder), and a resource is locked by a task id exactly when an
in-flight task with that id lists the resource in its resources set: tasks
hold all their resource locks exactly while processing.  The restriction is
needed because the resource checks of the source treat the empty-string
lock holder as falsy and skip it. -/
theorem schedC2_lock_table_char (s : SchedState) (h : SchedReachNE s) :
    (mapKeys s.resourceLocks).Nodup ∧
    ∀ r tid, mapLookup s.resourceLocks r = some tid ↔
      ∃ p ∈ s.processing, p.2.id = tid ∧ r ∈ p.2.resources :=
  ⟨(schedReachNE_inv s h).lockKeys, (schedReachNE_inv s h).lockChar⟩

/-- Witness for C2 at the reachable state schedS1 (taskA in flight holding
the lock on web). -/
theorem schedC2_witness :
    (mapKeys schedS1.resourceLocks).Nodup ∧
    ∀ r tid, mapLookup schedS1.resourceLocks r = some tid ↔
      ∃ p ∈ schedS1.processing, p.2.id = tid ∧ r ∈ p.2.resources :=
  schedC2_lock_table_char schedS1
    (SchedReachNE.submit (mkQueue 1) taskA 0 (SchedReachNE.init 1) (by rfl) (by decide)
      (by decide))

/-! ### Claim C7: the concurrency ceiling is never exceeded -/

/-- C7: in every reachable scheduler state the in-flight count is at most
the configured ceiling, and processNext admits nothing when the count has
reached the ceiling. -/
theorem schedC7_ceiling (s : SchedState) (h : SchedReach s) :
    s.processing.length ≤ s.maxConcurrent ∧
    ∀ now, s.maxConcurrent ≤ s.processing.length → processNext s now = (s, none) := by
  refine ⟨(schedReach_weakInv s h).2.2, ?_⟩
  intro now hcap
  simp [processNext, hcap]

/-- Witness for C7 at the reachable state schedS1. -/
theorem schedC7_witness :
    schedS1.processing.length ≤ schedS1.maxConcurrent ∧
    ∀ now, schedS1.maxConcurrent ≤ schedS1.processing.length →
      processNext schedS1 now = (schedS1, none) :=
  schedC7_ceiling schedS1
    (SchedReach.submit (mkQueue 1) taskA 0 (SchedReach.init 1) (by rfl) (by decide))

/-! ### Claim C4: do task statuses only move forward? -/

/-- C4 counterexample: completeTask accepts any status value.  In the
reachable state schedS1 the in-flight task a has status processing, yet
completeTask with the status argument queued hands the departing task back
with status queued — a backward transition — and with waiting_approval it
ends on a status outside {queued, processing, completed, failed}. -/
theorem schedC4_counterexample :
    (mapLookup schedS1.processing "a").map Task.status = some TaskStatus.processing ∧
    ((completeTask schedS1 "a" TaskStatus.queued 5).2).map Task.status =
      some TaskStatus.queued ∧
    ((completeTask schedS1 "a" TaskStatus.waitingApproval 5).2).map Task.status =
      some TaskStatus.waitingApproval := by
  refine ⟨rfl, rfl, rfl⟩

/-- C4 (amended): provided completeTask is invoked only with a terminal
status (completed or failed), statuses move only forward: every backlog
task is queued, every in-flight task is processing, the task departing
through completeTask leaves with exactly the requested status and was in
flight with status processing, failTask stamps failed, admission turns a
queued backlog task into a processing in-flight task, and complete or fail
on an id not in flight is a no-op returning the state unchanged. -/
theorem schedC4_forward_amended (s : SchedState) (h : SchedReach s) :
    (∀ t ∈ s.queue, t.status = TaskStatus.queued) ∧
    (∀ p ∈ s.processing, p.2.status = TaskStatus.processing) ∧
    (∀ taskId st now, mapLookup s.processing taskId = none →
      completeTask s taskId st now = (s, none) ∧ failTask s taskId now = (s, none)) ∧
    (∀ taskId st now t₂, (completeTask s taskId st now).2 = some t₂ →
      t₂.status = st ∧
      ∃ p ∈ s.processing, p.1 = taskId ∧ p.2.status = TaskStatus.processing ∧
        t₂.id = p.2.id) ∧
    (∀ taskId now t₂, (failTask s taskId now).2 = some t₂ →
      t₂.status = TaskStatus.failed) ∧
    (∀ now t₂, (processNext s now).2 = some t₂ →
      t₂.status = TaskStatus.processing ∧
      ∃ t ∈ s.queue, t.id = t₂.id ∧ t.status = TaskStatus.queued) := by
  obtain ⟨hqst, hpst, hbnd⟩ := schedReach_weakInv s h
  refine ⟨hqst, hpst, ?_, ?_, ?_, ?_⟩
  · intro taskId st now hnone
    constructor
    · simp [completeTask, hnone]
    · simp [failTask, hnone]
  · intro taskId st now t₂ hpay
    cases hlk : mapLookup s.processing taskId with
    | none => simp [completeTask, hlk] at hpay
    | some task =>
      have ht₂ : t₂ = { task with status := st, completedAt := some now } := by
        have := hpay
        simp [completeTask, hlk] at this
        exact this.symm
      subst ht₂
      have hmem := mapLookup_eq_some_mem hlk
      exact ⟨rfl, (taskId, task), hmem, rfl, hpst (taskId, task) hmem, rfl⟩
  · intro taskId now t₂ hpay
    rw [failTask_eq_completeTask] at hpay
    cases hlk : mapLookup s.processing taskId with
    | none => simp [completeTask, hlk] at hpay
    | some task =>
      have ht₂ : t₂ = { task with status := TaskStatus.failed, completedAt := some now } := by
        have := hpay
        simp [completeTask, hlk] at this
        exact this.symm
      subst ht₂
      rfl
  · intro now t₂ hpay
    by_cases hcap : s.maxConcurrent ≤ s.processing.length
    · simp [processNext, hcap] at hpay
    · cases hfind : s.queue.find? (fun task => canProcessTask s task) with
      | none => simp [processNext, hcap, hfind] at hpay
      | some t =>
        have ht₂ : t₂ = { t with status := TaskStatus.processing, startedAt := some now } := by
          have := hpay
          simp [processNext, hcap, hfind] at this
          exact this.symm
        subst ht₂
        have htq := List.mem_of_find?_eq_some hfind
        exact ⟨rfl, t, htq, rfl, hqst t htq⟩

/-- Witness for the amended C4 at the reachable state schedS1. -/
theorem schedC4_witness :
    (∀ t ∈ schedS1.queue, t.status = TaskStatus.queued) ∧
    (∀ p ∈ schedS1.processing, p.2.status = TaskStatus.processing) ∧
    (∀ taskId st now, mapLookup schedS1.processing taskId = none →
      completeTask schedS1 taskId st now = (schedS1, none) ∧
      failTask schedS1 taskId now = (schedS1, none)) ∧
    (∀ taskId st now t₂, (completeTask schedS1 taskId st now).2 = some t₂ →
      t₂.status = st ∧
      ∃ p ∈ schedS1.processing, p.1 = taskId ∧ p.2.status = TaskStatus.processing ∧
        t₂.id = p.2.id) ∧
    (∀ taskId now t₂, (failTask schedS1 taskId now).2 = some t₂ →
      t₂.status = TaskStatus.failed) ∧
    (∀ now t₂, (processNext schedS1 now).2 = some t₂ →
      t₂.status = TaskStatus.processing ∧
      ∃ t ∈ schedS1.queue, t.id = t₂.id ∧ t.status = TaskStatus.queued) :=
  schedC4_forward_amended schedS1
    (SchedReach.submit (mkQueue 1) taskA 0 (SchedReach.init 1) (by rfl) (by decide))

/-! ### Claim C9: what submit appends to the dependency list -/

/-- C9 counterexample: in schedS1 the lock on web is held by a.  Submitting
taskB, which already depends on a and also wants web, appends the conflict
id a again: the stored dependency list is [a, a], so an id does occur twice
after submission, contradicting the claimed deduplication against the
existing dependencies. -/
theorem schedC9_counterexample :
    ((addTask schedS1 taskB 1).1.queue).map Task.dependencies = [["a", "a"]] ∧
    ∃ t₂ ∈ (addTask schedS1 taskB 1).1.queue, ¬ t₂.dependencies.Nodup := by
  refine ⟨rfl, ?_⟩
  refine ⟨{ taskB with dependencies := ["a", "a"] }, ?_, by decide⟩
  decide

/-- C9 (amended): submit always succeeds and appends to task.dependencies
exactly the non-empty ids of tasks holding a lock on any resource of the
task (excluding the task itself, and excluding the empty-string holder,
which the truthiness guard of the source treats as falsy), deduplicated
among themselves — but not deduplicated against the ids already in
task.dependencies, so an id already listed can occur twice afterwards.  The
backlog is re-sorted by priority weight descending with createdAt ascending
as tie-break, and immediate admission is attempted on the re-sorted
backlog. -/
theorem schedC9_submit_amended (s : SchedState) (task : Task) (now : Nat) :
    ∃ conflicts : List String,
      conflicts.Nodup ∧
      (∀ id₂, id₂ ∈ conflicts ↔
        (id₂ ≠ "" ∧ id₂ ≠ task.id ∧
          ∃ r ∈ task.resources, mapLookup s.resourceLocks r = some id₂)) ∧
      addTask s task now =
        processNext
          { s with queue := sortQueue (s.queue ++
              [{ task with dependencies := task.dependencies ++ conflicts }]) } now ∧
      { task with dependencies := task.dependencies ++ conflicts } ∈
        sortQueue (s.queue ++
          [{ task with dependencies := task.dependencies ++ conflicts }]) ∧
      (sortQueue (s.queue ++
          [{ task with dependencies := task.dependencies ++ conflicts }])).Pairwise
        (fun a b => taskLE a b = true) := by
  refine ⟨checkResourceConflicts s task, nodup_dedupFirst _, ?_, rfl, ?_, sortQueue_sorted _⟩
  · intro id₂
    simp only [checkResourceConflicts, mem_dedupFirst, List.mem_filter, List.mem_filterMap,
      decide_eq_true_eq]
    constructor
    · rintro ⟨⟨r, hr, hlk⟩, hne, hni⟩
      exact ⟨hne, hni, r, hr, hlk⟩
    · rintro ⟨hne, hni, r, hr, hlk⟩
      exact ⟨⟨r, hr, hlk⟩, hne, hni⟩
  · rw [mem_sortQueue]
    exact List.mem_append.mpr (Or.inr (List.mem_singleton.mpr rfl))

end FabAI
